import Mathlib

/-! # Qt Installer Framework: `ConcurrentOperationRunner` and the selection resolver

A shallow embedding of `src/libs/installer/concurrentoperationrunner.cpp`, and a model
of the selection resolver that `tests/auto/installer/cliinterface/tst_cliinterface.cpp`
exercises.

How the runner is modelled:

* Pointers (`Operation *`, `QFutureWatcher<bool> *`) are natural numbers; the null
  `Operation *` is `0`, and every `new QFutureWatcher` yields a fresh number.
* A `QHash` is an association list with one entry per key.
* What the virtual actions of an operation do is given by a function from operations to
  `OperationImpl`: each action returns its value or throws.
* The Qt environment is a list of events that the nested event loop of `run()` works
  through: a pool thread starts a task, the `finished()` signal of a watcher reaches the
  runner, somebody calls `cancel()`. The callbacks run one after the other in the thread
  of the runner, in the order in which the signals arrive; any order is possible.
* What is taken from Qt: `QFutureWatcher::cancel()` sets the canceled state of the
  future whatever the state of its task, and `isCanceled()` reads that state; the task of
  a future that is canceled before a pool thread picks it up finishes without calling
  the function; a watcher emits `finished()` once, and a deleted watcher emits nothing;
  `QHash::insert` replaces the value of an existing key; `QHash::key` and `QHash::take`
  yield a default-constructed result when they find nothing; an exception that leaves
  the function of `QtConcurrent::run` is rethrown by `result()`, as the `Error` it was
  or else as a `QUnhandledException`.
-/

namespace QInstaller

/-! ## `QHash` -/

/-- A `QHash<K, V>`: association list, at most one entry per key. -/
abbrev QHash (K V : Type) := List (K × V)

namespace QHash

variable {K V : Type}

/-- The method `QHash::remove(key)`. -/
def remove [DecidableEq K] (h : QHash K V) (k : K) : QHash K V :=
  h.filter (fun p => !decide (p.1 = k))

/-- The method `QHash::insert(key, value)`: an existing entry of the key is replaced. -/
def insert [DecidableEq K] (h : QHash K V) (k : K) (v : V) : QHash K V :=
  (k, v) :: remove h k

/-- The method `QHash::value(key)` / `find`: the value stored under the key, if any. -/
def value [DecidableEq K] (h : QHash K V) (k : K) : Option V :=
  (h.find? (fun p => decide (p.1 = k))).map Prod.snd

/-- The method `QHash::key(value)`: the first key mapped to the value, or a default-constructed
key when no entry holds the value. -/
def key [DecidableEq V] (h : QHash K V) (v : V) (defaultKey : K) : K :=
  match h.find? (fun p => decide (p.2 = v)) with
  | some p => p.1
  | none => defaultKey

/-- The method `QHash::take(key)`: removes the entry and returns its value (a default-constructed
value, here `none`, when the key is absent). -/
def take [DecidableEq K] (h : QHash K V) (k : K) : Option V × QHash K V :=
  (value h k, remove h k)

/-- The method `QHash::keys()`. -/
def keys (h : QHash K V) : List K := h.map Prod.fst

/-- The method `QHash::values()`. -/
def values (h : QHash K V) : List V := h.map Prod.snd

end QHash

/-! ## Operations -/

/-- An `Operation *`; `nullOperation` is `nullptr`. -/
abbrev Operation := Nat

/-- The null `Operation *`, what `QHash::key` default-constructs. -/
def nullOperation : Operation := 0

/-- The enumeration `Operation::OperationType`. It has exactly these three enumerators,
so the `default:` branch of `runOperation` (a `Q_ASSERT`) is unreachable. -/
inductive OperationType where
  | Backup
  | Perform
  | Undo
  deriving DecidableEq, Repr

/-- What an action can throw: an installer `Error`, or anything else, which
QtConcurrent transfers as a `QUnhandledException`. -/
inductive Fault where
  | error (code : Nat)
  | unhandled
  deriving DecidableEq, Repr

/-- The virtual actions of one operation object: each either returns or throws. -/
structure OperationImpl where
  backup : Except Fault Unit
  performOperation : Except Fault Bool
  undoOperation : Except Fault Bool

/-- The three virtual actions that `runOperation` can invoke. -/
inductive Call where
  | backup
  | performOperation
  | undoOperation
  deriving DecidableEq, Repr

/-- The function `runOperation(operation, type)` (lines 107-121): the actions it invokes, and its
return value or the exception that leaves it. -/
def runOperation (operation : OperationImpl) (type : OperationType) :
    List Call × Except Fault Bool :=
  match type with
  | .Backup => ([Call.backup], operation.backup.bind (fun _ => Except.ok true))
  | .Perform => ([Call.performOperation], operation.performOperation)
  | .Undo => ([Call.undoOperation], operation.undoOperation)

/-! ## The runner and its Qt environment -/

/-- A live `QFutureWatcher<bool>` whose `finished()` signal is still to come, with the
future set on it by `setFuture(QtConcurrent::run(&runOperation, operation, m_type))`.
`canceled` is what `isCanceled()` reads and `QFutureWatcher::cancel()` sets, whatever
the state of the task; `started` tells that a pool thread has begun the task. -/
structure Future where
  id : Nat
  operation : Operation
  type : OperationType
  canceled : Bool
  started : Bool
  deriving DecidableEq, Repr

/-- The members of `ConcurrentOperationRunner` (`m_operations`, `m_type`,
`m_operationWatchers`, `m_results`) together with the Qt environment: the watchers
whose `finished()` is outstanding, the allocator of `new QFutureWatcher`, the number of
emissions of the runner's `finished()` signal and the log of invoked actions. -/
structure ConcurrentOperationRunner where
  m_operations : List Operation
  m_type : OperationType
  m_operationWatchers : QHash Operation Nat
  m_results : QHash Operation Bool
  watchers : List Future
  nextWatcher : Nat
  finishedCount : Nat
  calls : List (Operation × Call)
  deriving DecidableEq, Repr

namespace ConcurrentOperationRunner

/-- The constructor `ConcurrentOperationRunner(operations, type, parent)`. -/
def construct (operations : List Operation) (type : OperationType) :
    ConcurrentOperationRunner :=
  { m_operations := operations, m_type := type, m_operationWatchers := [],
    m_results := [], watchers := [], nextWatcher := 0, finishedCount := 0, calls := [] }

/-- The method `setOperations(operations)`. -/
def setOperations (s : ConcurrentOperationRunner) (operations : List Operation) :
    ConcurrentOperationRunner :=
  { s with m_operations := operations }

/-- The method `setType(type)`. -/
def setType (s : ConcurrentOperationRunner) (type : OperationType) :
    ConcurrentOperationRunner :=
  { s with m_type := type }

/-- The statement `delete watcher`: a deleted watcher delivers no signal any more, and
the model does not follow its task any further. -/
def deleteWatcher (ws : List Future) (w : Nat) : List Future :=
  ws.filter (fun f => !decide (f.id = w))

/-- The method `reset()` (lines 201-206): `qDeleteAll(m_operationWatchers)`, then both
hashes are cleared. -/
def reset (s : ConcurrentOperationRunner) : ConcurrentOperationRunner :=
  { s with
    watchers := s.watchers.filter (fun f => !decide (f.id ∈ QHash.values s.m_operationWatchers)),
    m_operationWatchers := [],
    m_results := [] }

/-- One iteration of the loop of `run()` (lines 133-139): a new watcher is inserted
under the operation and the task is handed to the thread pool. -/
def dispatch (s : ConcurrentOperationRunner) (operation : Operation) :
    ConcurrentOperationRunner :=
  { s with
    m_operationWatchers := QHash.insert s.m_operationWatchers operation s.nextWatcher,
    watchers := s.watchers ++
      [{ id := s.nextWatcher, operation := operation, type := s.m_type,
         canceled := false, started := false }],
    nextWatcher := s.nextWatcher + 1 }

/-- The `for` loop of `run()` (lines 132-140) over `*m_operations`. -/
def dispatchAll (s : ConcurrentOperationRunner) : ConcurrentOperationRunner :=
  s.m_operations.foldl dispatch s

/-- The method `cancel()` (lines 156-160): `cancel()` on every watcher of
`m_operationWatchers`. -/
def cancel (s : ConcurrentOperationRunner) : ConcurrentOperationRunner :=
  { s with
    watchers := s.watchers.map (fun f =>
      if f.id ∈ QHash.values s.m_operationWatchers then { f with canceled := true } else f) }

/-- What `m_results.insert(op, ...)` stores in `onOperationfinished` (lines 173-187):
`false` for a canceled watcher, else the result of the future, with a transferred
`Error` or `QUnhandledException` caught and turned into `false`. -/
def recorded (impl : Operation → OperationImpl) (f : Future) : Bool :=
  if !f.canceled then
    match (runOperation (impl f.operation) f.type).2 with
    | .ok b => b
    | .error (Fault.error _) => false
    | .error Fault.unhandled => false
  else
    false

/-- The slot `onOperationfinished()` (lines 168-194) with `sender()` the given watcher. -/
def onOperationfinished (impl : Operation → OperationImpl) (s : ConcurrentOperationRunner)
    (sender : Future) : ConcurrentOperationRunner :=
  let op := QHash.key s.m_operationWatchers sender.id nullOperation
  let results := QHash.insert s.m_results op (recorded impl sender)
  let taken := QHash.take s.m_operationWatchers op
  let watchers :=
    match taken.1 with
    | some w => deleteWatcher s.watchers w
    | none => s.watchers
  { s with
    m_results := results,
    m_operationWatchers := taken.2,
    watchers := watchers,
    finishedCount := if taken.2.isEmpty then s.finishedCount + 1 else s.finishedCount }

/-- What happens around the runner while `run()` blocks in `loop.exec()`. -/
inductive Event where
  /-- A pool thread picks up the task of the watcher. -/
  | start (w : Nat)
  /-- The task of the watcher is over and its `finished()` reaches the runner. -/
  | finished (w : Nat)
  /-- Somebody calls `cancel()` on the runner. -/
  | cancel
  deriving DecidableEq, Repr

/-- A pool thread picks up the task of watcher `w`: the task of a canceled future ends
without calling the function, otherwise `runOperation` is invoked. -/
def startTask (impl : Operation → OperationImpl) (s : ConcurrentOperationRunner) (w : Nat) :
    ConcurrentOperationRunner :=
  match s.watchers.find? (fun f => decide (f.id = w)) with
  | none => s
  | some f =>
    if f.canceled || f.started then s
    else
      { s with
        watchers := s.watchers.map (fun g => if g.id = w then { g with started := true } else g),
        calls := s.calls ++ (runOperation (impl f.operation) f.type).1.map (fun c => (f.operation, c)) }

/-- The task of watcher `w` is over (it ran now unless it had started before or was
canceled) and the watcher emits `finished()`, which invokes `onOperationfinished`. -/
def deliverFinished (impl : Operation → OperationImpl) (s : ConcurrentOperationRunner)
    (w : Nat) : ConcurrentOperationRunner :=
  match s.watchers.find? (fun f => decide (f.id = w)) with
  | none => s
  | some f =>
    let s1 := startTask impl s w
    onOperationfinished impl { s1 with watchers := deleteWatcher s1.watchers w } f

/-- One event. -/
def step (impl : Operation → OperationImpl) (s : ConcurrentOperationRunner) :
    Event → ConcurrentOperationRunner
  | .start w => startTask impl s w
  | .finished w => deliverFinished impl s w
  | .cancel => cancel s

/-- The call `loop.exec()` with `finished()` connected to `QEventLoop::quit` (lines
143-144): events are processed until one of them emits `finished()`; `false` when the
events run out while the loop is still waiting. -/
def exec (impl : Operation → OperationImpl) :
    ConcurrentOperationRunner → List Event → ConcurrentOperationRunner × Bool
  | s, [] => (s, false)
  | s, e :: es =>
    if s.finishedCount < (step impl s e).finishedCount then (step impl s e, true)
    else exec impl (step impl s e) es

/-- The method `run()` (lines 127-148): the state at the end and the returned hash,
`none` when the call is still blocked in `loop.exec()` after the given events. -/
def run (impl : Operation → OperationImpl) (s : ConcurrentOperationRunner)
    (es : List Event) : ConcurrentOperationRunner × Option (QHash Operation Bool) :=
  let s1 := dispatchAll (reset s)
  if !s1.m_operationWatchers.isEmpty then
    let r := exec impl s1 es
    (r.1, if r.2 then some r.1.m_results else none)
  else
    (s1, some s1.m_results)

/-- Whether, in the given events, `cancel()` is called before the callback of watcher
`w` arrives. -/
def canceledBefore : List Event → Nat → Bool
  | [], _ => false
  | Event.cancel :: _, _ => true
  | Event.finished v :: es, w => if v = w then false else canceledBefore es w
  | Event.start _ :: es, w => canceledBefore es w

end ConcurrentOperationRunner

/-! ## The selection resolver

The resolver itself (`PackageManagerCore::installSelectedComponentsSilently` and what it
calls) is not among the sources, only its test `tst_cliinterface.cpp` is. -/

namespace Resolver

/-- Modelled from the spec: the identity of a component, a dot-delimited hierarchical
path, kept as the list of its segments (`F.sub2.subsub2` is `["F", "sub2", "subsub2"]`). -/
abbrev ComponentId := List String

/-- Modelled from the spec: a component of the catalog (section 3): its identity, its
flags (`isVirtual` is the flag `virtual`), its dependency ids and the trigger sets of its
autodependency rules. -/
structure Component where
  id : ComponentId
  isVirtual : Bool
  checkableLeafOnly : Bool
  forced : Bool
  defaultSelected : Bool
  installOnlyAsDependency : Bool
  dependencies : List ComponentId
  autoDependencyRules : List (List ComponentId)
  deriving DecidableEq, Repr

/-- Modelled from the spec: the component catalog (section 4.1), in iteration order. -/
abbrev Catalog := List Component

/-- Modelled from the spec: the selection errors of section 7, each with the offending
component id. -/
inductive SelectionError where
  | NotFound (id : ComponentId)
  | VirtualComponent (id : ComponentId)
  | MustSelectSubcomponent (id : ComponentId)
  | OnlyInstallableAsDependency (id : ComponentId)
  deriving DecidableEq, Repr

/-- Modelled from the spec: a selection request (section 3), an explicit list of ids or
the marker of the default set. -/
inductive SelectionRequest where
  | explicit (ids : List ComponentId)
  | defaultSet
  deriving DecidableEq, Repr

/-- Modelled from the spec: catalog lookup `get(id)`; `none` stands for `NotFound`. -/
def get (cat : Catalog) (id : ComponentId) : Option Component :=
  cat.find? (fun c => decide (c.id = id))

/-- Modelled from the spec: catalog interface `children(id)`, the direct children in the
tree that the dotted paths establish. -/
def children (cat : Catalog) (id : ComponentId) : List ComponentId :=
  (cat.map (fun c => c.id)).filter (fun c => decide (c ≠ [] ∧ c.dropLast = id))

/-- Modelled from the spec: catalog interface `ancestors(id)`, every id on the dotted
path above the component, the root first. -/
def ancestors (id : ComponentId) : List ComponentId :=
  (List.range id.length).tail.map (fun n => id.take n)

/-- Modelled from the spec: catalog interface `dependencies(id)`. -/
def dependencies (cat : Catalog) (id : ComponentId) : List ComponentId :=
  match get cat id with
  | some c => c.dependencies
  | none => []

/-- Modelled from the spec: catalog interface `autoDependencyRules(id)`. -/
def autoDependencyRules (cat : Catalog) (id : ComponentId) : List (List ComponentId) :=
  match get cat id with
  | some c => c.autoDependencyRules
  | none => []

/-- Modelled from the spec: validation of one explicitly requested id (section 4.2), the
four checks in their order, the first failing check wins. A `checkableLeafOnly` id that
has children is the grouping component of check 3, not a concrete installable unit. -/
def validate (cat : Catalog) (id : ComponentId) : Except SelectionError Unit :=
  match get cat id with
  | none => .error (.NotFound id)
  | some c =>
    if c.isVirtual then .error (.VirtualComponent id)
    else if c.checkableLeafOnly && !(children cat id).isEmpty then
      .error (.MustSelectSubcomponent id)
    else if c.installOnlyAsDependency then .error (.OnlyInstallableAsDependency id)
    else .ok ()

/-- Modelled from the spec: validation is applied to every explicitly requested id, and
an error aborts resolution. -/
def validateAll (cat : Catalog) : List ComponentId → Except SelectionError Unit
  | [] => .ok ()
  | id :: rest =>
    match validate cat id with
    | .error e => .error e
    | .ok _ => validateAll cat rest

/-- Modelled from the spec: adding ids to the working set, which holds every id once. -/
def addAll (ws ids : List ComponentId) : List ComponentId :=
  ws ++ (ids.filter (fun i => decide (i ∉ ws))).dedup

/-- Modelled from the spec: closure step 2, every id of the working set brings its full
ancestor chain. -/
def addAncestors (ws : List ComponentId) : List ComponentId :=
  addAll ws (ws.flatMap ancestors)

/-- Modelled from the spec: closure step 3, every id of the working set brings its
declared dependencies, recursively, with their ancestors. -/
def addDependencies (cat : Catalog) : Nat → List ComponentId → List ComponentId
  | 0, ws => ws
  | n + 1, ws =>
    if (addAncestors (addAll ws (ws.flatMap (dependencies cat)))).length = ws.length then ws
    else addDependencies cat n (addAncestors (addAll ws (ws.flatMap (dependencies cat))))

/-- Modelled from the spec: closure step 4, every `forced` component of the catalog. -/
def forcedIds (cat : Catalog) : List ComponentId :=
  (cat.filter (fun c => c.forced)).map (fun c => c.id)

/-- Modelled from the spec: the cycle guard of closure step 5, whether a trigger set
transitively (through the rules of its members) includes the owner of the rule. -/
def triggersReach (cat : Catalog) (owner : ComponentId) : Nat → List ComponentId → Bool
  | 0, triggers => triggers.any (fun t => decide (t = owner))
  | n + 1, triggers =>
    triggers.any (fun t => decide (t = owner) ||
      (autoDependencyRules cat t).any (fun r => triggersReach cat owner n r))

/-- Modelled from the spec: closure step 5, the components one of whose autodependency
rules has its full trigger set in the working set; a rule on a cycle never fires. -/
def autoSelected (cat : Catalog) (ws : List ComponentId) : List ComponentId :=
  (cat.filter (fun c => c.autoDependencyRules.any (fun r =>
    !triggersReach cat c.id cat.length r && r.all (fun t => decide (t ∈ ws))))).map
    (fun c => c.id)

/-- Modelled from the spec: every id the working set can ever hold, which bounds the
number of passes. -/
def idUniverse (cat : Catalog) (seeds : List ComponentId) : List ComponentId :=
  addAncestors ((seeds ++ cat.map (fun c => c.id) ++ cat.flatMap (fun c => c.dependencies)).dedup)

/-- Modelled from the spec: one pass over closure steps 2 to 5. -/
def closurePass (cat : Catalog) (bound : Nat) (ws : List ComponentId) : List ComponentId :=
  let s3 := addDependencies cat bound (addAncestors ws)
  let s4 := addAll s3 (forcedIds cat)
  addAll s4 (autoSelected cat s4)

/-- Modelled from the spec: steps 2 to 5 are repeated until one full pass adds nothing. -/
def closure (cat : Catalog) (bound : Nat) : Nat → List ComponentId → List ComponentId
  | 0, ws => closurePass cat bound ws
  | n + 1, ws =>
    if (closurePass cat bound ws).length = ws.length then closurePass cat bound ws
    else closure cat bound n (closurePass cat bound ws)

/-- Modelled from the spec: the working set in catalog iteration order, which breaks
the ties of the topological order; ids unknown to the catalog come last. -/
def catalogOrder (cat : Catalog) (ws : List ComponentId) : List ComponentId :=
  ((cat.map (fun c => c.id)).filter (fun i => decide (i ∈ ws)) ++
    ws.filter (fun i => decide (i ∉ cat.map (fun c => c.id)))).dedup

/-- Modelled from the spec: no ancestor of the id is still waiting. -/
def ancestorsPlaced (waiting : List ComponentId) (id : ComponentId) : Bool :=
  (ancestors id).all (fun a => decide (a ∉ waiting))

/-- Modelled from the spec: no ancestor and no declared dependency of the id is still
waiting. -/
def placeable (cat : Catalog) (waiting : List ComponentId) (id : ComponentId) : Bool :=
  ancestorsPlaced waiting id && (dependencies cat id).all (fun d => decide (d ∉ waiting))

/-- Modelled from the spec: the next id of the order, the first waiting id with its
ancestors and dependencies placed; where dependencies form a cycle, on which the spec is
silent, the first waiting id with its ancestors placed. -/
def pick (cat : Catalog) (waiting : List ComponentId) : Option ComponentId :=
  match waiting.find? (placeable cat waiting) with
  | some x => some x
  | none => waiting.find? (ancestorsPlaced waiting)

/-- Modelled from the spec: closure step 6, the topological order: ancestors precede
descendants, dependencies precede dependents, ties break by catalog order. -/
def topologicalOrder (cat : Catalog) : Nat → List ComponentId → List ComponentId
  | 0, _ => []
  | n + 1, waiting =>
    match pick cat waiting with
    | none => []
    | some x => x :: topologicalOrder cat n (waiting.erase x)

/-- Modelled from the spec: closure step 1, the seeds of the working set. -/
def seeds (cat : Catalog) : SelectionRequest → List ComponentId
  | .explicit ids => ids
  | .defaultSet => (cat.filter (fun c => c.defaultSelected)).map (fun c => c.id)

/-- Modelled from the spec: the closure algorithm of section 4.2 on validated seeds. -/
def select (cat : Catalog) (seedIds : List ComponentId) : List ComponentId :=
  let bound := (idUniverse cat seedIds).length
  let ws := closure cat bound bound seedIds.dedup
  topologicalOrder cat (catalogOrder cat ws).length (catalogOrder cat ws)

/-- Modelled from the spec: `resolve(request)`, a `SelectionResult` or a
`SelectionError`; the closure runs only after all explicit ids pass validation. -/
def resolve (cat : Catalog) (request : SelectionRequest) :
    Except SelectionError (List ComponentId) :=
  match request with
  | .explicit ids =>
    match validateAll cat ids with
    | .error e => .error e
    | .ok _ => .ok (select cat ids)
  | .defaultSet => .ok (select cat (seeds cat .defaultSet))

/-- A component without flags, dependencies or rules. -/
def plain (id : ComponentId) : Component :=
  { id := id, isVirtual := false, checkableLeafOnly := false, forced := false,
    defaultSelected := false, installOnlyAsDependency := false, dependencies := [],
    autoDependencyRules := [] }

/-- Modelled from the spec: the catalog of the end-to-end scenario of section 8 and of
the test's `installPackagesRepository` (whose data is not among the sources), with the
flags that the comments of the test name. -/
def installPackagesRepository : Catalog :=
  [ plain ["componentA"],
    plain ["componentB"],
    { plain ["componentC"] with dependencies := [["componentA"], ["componentB"]] },
    { plain ["componentD"] with autoDependencyRules := [[["componentA"], ["componentB"]]] },
    { plain ["componentE"] with forced := true },
    plain ["componentF"],
    plain ["componentF", "subcomponent1"],
    plain ["componentF", "subcomponent2"],
    plain ["componentF", "subcomponent2", "subsubcomponent1"],
    plain ["componentF", "subcomponent2", "subsubcomponent2"],
    { plain ["componentG"] with defaultSelected := true, dependencies := [["componentA"]] } ]

/-- Modelled from the spec: the catalog of the test's
`uninstallableComponentsRepository` (whose data is not among the sources), with the flags
that the messages expected by the test name. -/
def uninstallableComponentsRepository : Catalog :=
  [ { plain ["A"] with installOnlyAsDependency := true,
                       autoDependencyRules := [[["autoDep"]]] },
    { plain ["AB"] with checkableLeafOnly := true },
    plain ["AB", "sub1"],
    { plain ["B"] with isVirtual := true },
    plain ["autoDep"] ]

end Resolver

/-! ## Definitions used in the statements and proofs -/

namespace ConcurrentOperationRunner

/-- The second future is the first one up to its `started` flag. -/
def Same (x y : Future) : Prop :=
  y.id = x.id ∧ y.operation = x.operation ∧ y.type = x.type ∧ y.canceled = x.canceled

/-- The watchers left after the callback of watcher `w`: `w` itself is gone, and so is
the watcher that `delete m_operationWatchers.take(op)` deleted. -/
def remaining (s : ConcurrentOperationRunner) (w : Nat) (ws : List Future) : List Future :=
  match QHash.value s.m_operationWatchers (QHash.key s.m_operationWatchers w nullOperation) with
  | some t => deleteWatcher (deleteWatcher ws w) t
  | none => deleteWatcher ws w

/-- The state after the callback of watcher `w`, whose future is `f`, has run. -/
def delivered (impl : Operation → OperationImpl) (s : ConcurrentOperationRunner) (w : Nat)
    (f : Future) (ws : List Future) (c : List (Operation × Call)) : ConcurrentOperationRunner :=
  { s with
    m_results := QHash.insert s.m_results
      (QHash.key s.m_operationWatchers w nullOperation) (recorded impl f),
    m_operationWatchers := QHash.remove s.m_operationWatchers
      (QHash.key s.m_operationWatchers w nullOperation),
    watchers := remaining s w ws,
    finishedCount :=
      if (QHash.remove s.m_operationWatchers
          (QHash.key s.m_operationWatchers w nullOperation)).isEmpty
      then s.finishedCount + 1 else s.finishedCount,
    calls := c }

/-- The bookkeeping invariant of the runner, for any operation list: the table has one
entry per key and per watcher, every watcher of the table still owes its `finished()`,
and watcher identities are unique and older than the allocator. -/
structure Inv (s : ConcurrentOperationRunner) : Prop where
  keysNodup : (QHash.keys s.m_operationWatchers).Nodup
  valuesNodup : (QHash.values s.m_operationWatchers).Nodup
  pending : ∀ p ∈ s.m_operationWatchers, ∃ f ∈ s.watchers, f.id = p.2
  idsNodup : (s.watchers.map Future.id).Nodup
  fresh : ∀ f ∈ s.watchers, f.id < s.nextWatcher
  resultsNodup : (QHash.keys s.m_results).Nodup

/-- What holds on top of `Inv` when the dispatched operations are pairwise distinct:
every outstanding watcher is the table entry of its own operation, and an operation
with a recorded outcome has left the table. -/
structure Linked (s : ConcurrentOperationRunner) : Prop where
  registered : ∀ f ∈ s.watchers, (f.operation, f.id) ∈ s.m_operationWatchers
  disjoint : ∀ op ∈ QHash.keys s.m_results, op ∉ QHash.keys s.m_operationWatchers

/-- Every operation of the list is in the table or has a recorded outcome. -/
def Cover (ops : List Operation) (s : ConcurrentOperationRunner) : Prop :=
  ∀ op ∈ ops, op ∈ QHash.keys s.m_operationWatchers ∨ op ∈ QHash.keys s.m_results

/-- The function `cancel()` applies to every outstanding watcher. -/
def cancelMark (s : ConcurrentOperationRunner) (f : Future) : Future :=
  if f.id ∈ QHash.values s.m_operationWatchers then { f with canceled := true } else f

/-- The watchers that the loop of `run()` creates for a list of operations, the first
of them with identity `base`. -/
def newFutures (base : Nat) (type : OperationType) : List Operation → List Future
  | [] => []
  | a :: t =>
    { id := base, operation := a, type := type, canceled := false, started := false } ::
      newFutures (base + 1) type t

/-- Every key of the table and of the results is an operation of the list. -/
def Within (ops : List Operation) (s : ConcurrentOperationRunner) : Prop :=
  (∀ op ∈ QHash.keys s.m_results, op ∈ ops) ∧
  (∀ op ∈ QHash.keys s.m_operationWatchers, op ∈ ops)

/-- No watcher is outstanding outside the table: what holds when the runner is fresh,
and after every `run()` over pairwise-distinct operations. -/
def NoOrphan (s : ConcurrentOperationRunner) : Prop :=
  ∀ f ∈ s.watchers, f.id ∈ QHash.values s.m_operationWatchers

/-- Every outstanding watcher is canceled. -/
def AllCanceled (s : ConcurrentOperationRunner) : Prop :=
  ∀ f ∈ s.watchers, f.canceled = true

end ConcurrentOperationRunner

/-! ## The operations used in the examples -/

/-- An operation whose actions all succeed. -/
def okImpl : OperationImpl :=
  { backup := .ok (), performOperation := .ok true, undoOperation := .ok true }

/-- An operation whose actions all throw an `Error`. -/
def faultyImpl : OperationImpl :=
  { backup := .error (Fault.error 1), performOperation := .error (Fault.error 1),
    undoOperation := .error (Fault.error 1) }

/-- Operation `8` throws, every other operation succeeds. -/
def mixedImpl (op : Operation) : OperationImpl :=
  if op = 8 then faultyImpl else okImpl

/-- The runner after a `run()` over the list that names `7` twice, in which the second
watcher reported first, handed the single operation `8`: the replaced watcher of the
first run is still outstanding. -/
def orphanedRunner : ConcurrentOperationRunner :=
  ConcurrentOperationRunner.setOperations
    (ConcurrentOperationRunner.run (fun _ => okImpl)
      (ConcurrentOperationRunner.construct [7, 7] .Perform) [.finished 1]).1
    [8]

/-- A runner that holds outcomes of an earlier run for `7` and `8` and two watchers
still pending in its table for `5` and `6`, handed the operations `9` and `7`. -/
def leftoverRunner : ConcurrentOperationRunner :=
  { m_operations := [9, 7], m_type := .Undo,
    m_operationWatchers := [(6, 1), (5, 0)], m_results := [(7, true), (8, false)],
    watchers :=
      [{ id := 0, operation := 5, type := .Perform, canceled := false, started := true },
       { id := 1, operation := 6, type := .Perform, canceled := false, started := false }],
    nextWatcher := 2, finishedCount := 1, calls := [(5, Call.performOperation)] }

/-- The runner after a first `run()` over `7` and `8`, handed the operations `9` and
`7` for an `Undo` run. -/
def reusedRunner : ConcurrentOperationRunner :=
  ConcurrentOperationRunner.setType (ConcurrentOperationRunner.setOperations
    (ConcurrentOperationRunner.run (fun _ => okImpl)
      (ConcurrentOperationRunner.construct [7, 8] .Perform) [.finished 1, .finished 0]).1
    [9, 7]) .Undo

/-! ## Facts about `QHash` -/

namespace QHash

variable {K V : Type}

theorem mem_remove [DecidableEq K] {h : QHash K V} {k : K} {p : K × V} :
    p ∈ remove h k ↔ p ∈ h ∧ p.1 ≠ k := by
  simp [remove]

theorem mem_keys_remove [DecidableEq K] {h : QHash K V} {k x : K} :
    x ∈ keys (remove h k) ↔ x ∈ keys h ∧ x ≠ k := by
  simp only [keys, List.mem_map, mem_remove]
  constructor
  · rintro ⟨p, ⟨hp, hne⟩, rfl⟩
    exact ⟨⟨p, hp, rfl⟩, hne⟩
  · rintro ⟨⟨p, hp, rfl⟩, hne⟩
    exact ⟨p, ⟨hp, hne⟩, rfl⟩

theorem not_mem_keys_remove [DecidableEq K] (h : QHash K V) (k : K) :
    k ∉ keys (remove h k) := by
  intro hk
  exact (mem_keys_remove.1 hk).2 rfl

theorem remove_sublist [DecidableEq K] (h : QHash K V) (k : K) :
    List.Sublist (remove h k) h :=
  List.filter_sublist h

theorem nodup_keys_remove [DecidableEq K] {h : QHash K V} (k : K)
    (hn : (keys h).Nodup) : (keys (remove h k)).Nodup :=
  List.Nodup.sublist (List.Sublist.map Prod.fst (remove_sublist h k)) hn

theorem nodup_values_remove [DecidableEq K] {h : QHash K V} (k : K)
    (hn : (values h).Nodup) : (values (remove h k)).Nodup :=
  List.Nodup.sublist (List.Sublist.map Prod.snd (remove_sublist h k)) hn

theorem keys_insert [DecidableEq K] (h : QHash K V) (k : K) (v : V) :
    keys (insert h k v) = k :: keys (remove h k) := rfl

theorem nodup_keys_insert [DecidableEq K] {h : QHash K V} (k : K) (v : V)
    (hn : (keys h).Nodup) : (keys (insert h k v)).Nodup := by
  rw [keys_insert]
  exact List.nodup_cons.2 ⟨not_mem_keys_remove h k, nodup_keys_remove k hn⟩

theorem mem_keys_insert [DecidableEq K] {h : QHash K V} {k x : K} {v : V} :
    x ∈ keys (insert h k v) ↔ x = k ∨ x ∈ keys h := by
  rw [keys_insert, List.mem_cons, mem_keys_remove]
  constructor
  · rintro (h1 | ⟨h1, _⟩)
    · exact Or.inl h1
    · exact Or.inr h1
  · rintro (h1 | h1)
    · exact Or.inl h1
    · by_cases hx : x = k
      · exact Or.inl hx
      · exact Or.inr ⟨h1, hx⟩

theorem remove_eq_self [DecidableEq K] {h : QHash K V} {k : K} (hk : k ∉ keys h) :
    remove h k = h := by
  apply List.filter_eq_self.2
  intro p hp
  have : p.1 ≠ k := by
    rintro rfl
    exact hk (List.mem_map_of_mem Prod.fst hp)
  simp [this]

theorem value_insert_self [DecidableEq K] (h : QHash K V) (k : K) (v : V) :
    value (insert h k v) k = some v := by
  simp [value, insert]

theorem value_remove_ne [DecidableEq K] (h : QHash K V) {k x : K} (hx : x ≠ k) :
    value (remove h k) x = value h x := by
  induction h with
  | nil => rfl
  | cons p t ih =>
    by_cases hp : p.1 = k
    · have hpx : ¬ p.1 = x := fun e => hx (e.symm.trans hp)
      have h1 : remove (p :: t) k = remove t k := by simp [remove, hp]
      have h2 : value (p :: t) x = value t x := by simp [value, hpx]
      rw [h1, h2, ih]
    · have h1 : remove (p :: t) k = p :: remove t k := by simp [remove, hp]
      rw [h1]
      by_cases hpx : p.1 = x
      · simp [value, hpx]
      · have h2 : value (p :: remove t k) x = value (remove t k) x := by simp [value, hpx]
        have h3 : value (p :: t) x = value t x := by simp [value, hpx]
        rw [h2, h3, ih]

theorem value_insert_ne [DecidableEq K] (h : QHash K V) {k x : K} (v : V) (hx : x ≠ k) :
    value (insert h k v) x = value h x := by
  have hkx : ¬ k = x := fun e => hx e.symm
  have h1 : value (insert h k v) x = value (remove h k) x := by
    simp [value, insert, hkx]
  rw [h1, value_remove_ne h hx]

theorem value_eq_none [DecidableEq K] {h : QHash K V} {k : K} (hk : k ∉ keys h) :
    value h k = none := by
  have : h.find? (fun p => decide (p.1 = k)) = none := by
    apply List.find?_eq_none.2
    intro p hp
    have : p.1 ≠ k := by
      rintro rfl
      exact hk (List.mem_map_of_mem Prod.fst hp)
    simp [this]
  simp [value, this]

theorem mem_keys_of_value [DecidableEq K] {h : QHash K V} {k : K} {v : V}
    (hv : value h k = some v) : k ∈ keys h := by
  by_contra hk
  rw [value_eq_none hk] at hv
  cases hv

theorem value_of_mem [DecidableEq K] {h : QHash K V} {k : K} {v : V}
    (hn : (keys h).Nodup) (hm : (k, v) ∈ h) : value h k = some v := by
  induction h with
  | nil => cases hm
  | cons p t ih =>
    have hn2 := List.nodup_cons.1 hn
    rcases List.mem_cons.1 hm with rfl | hm2
    · simp [value]
    · have hpk : ¬ p.1 = k := by
        intro e
        apply hn2.1
        rw [e]
        exact List.mem_map_of_mem Prod.fst hm2
      have h2 : value (p :: t) k = value t k := by simp [value, hpk]
      rw [h2]
      exact ih hn2.2 hm2

theorem key_of_mem [DecidableEq V] {h : QHash K V} {k d : K} {v : V}
    (hn : (values h).Nodup) (hm : (k, v) ∈ h) : key h v d = k := by
  induction h with
  | nil => cases hm
  | cons p t ih =>
    have hn2 := List.nodup_cons.1 hn
    rcases List.mem_cons.1 hm with rfl | hm2
    · simp [key]
    · have hpv : ¬ p.2 = v := by
        intro e
        apply hn2.1
        rw [e]
        exact List.mem_map_of_mem Prod.snd hm2
      have h2 : key (p :: t) v d = key t v d := by simp [key, hpv]
      rw [h2]
      exact ih hn2.2 hm2

theorem key_of_not_mem [DecidableEq V] {h : QHash K V} {d : K} {v : V}
    (hv : v ∉ values h) : key h v d = d := by
  have : h.find? (fun p => decide (p.2 = v)) = none := by
    apply List.find?_eq_none.2
    intro p hp
    have : p.2 ≠ v := by
      rintro rfl
      exact hv (List.mem_map_of_mem Prod.snd hp)
    simp [this]
  simp [key, this]

theorem mem_of_value [DecidableEq K] {h : QHash K V} {k : K} {v : V}
    (hv : value h k = some v) : (k, v) ∈ h := by
  unfold value at hv
  cases hf : h.find? (fun p => decide (p.1 = k)) with
  | none => rw [hf] at hv; cases hv
  | some p =>
    rw [hf] at hv
    have h1 : p.1 = k := by simpa using List.find?_some hf
    have h2 : p.2 = v := by simpa using hv
    have h3 := List.mem_of_find?_eq_some hf
    have h4 : p = (k, v) := Prod.ext h1 h2
    rw [← h4]
    exact h3

theorem value_unique [DecidableEq K] {h : QHash K V} {k : K} {v v2 : V}
    (hn : (keys h).Nodup) (h1 : (k, v) ∈ h) (h2 : (k, v2) ∈ h) : v = v2 := by
  have e1 := value_of_mem hn h1
  have e2 := value_of_mem hn h2
  rw [e1] at e2
  exact Option.some.inj e2

theorem key_unique [DecidableEq V] {h : QHash K V} {k k2 : K} {v : V}
    (hn : (values h).Nodup) (h1 : (k, v) ∈ h) (h2 : (k2, v) ∈ h) : k = k2 := by
  have e1 : key h v k = k := key_of_mem hn h1
  have e2 : key h v k = k2 := key_of_mem hn h2
  exact e1.symm.trans e2

end QHash

namespace ConcurrentOperationRunner

/-! ## Normal forms of the events -/

theorem startTask_eq (impl : Operation → OperationImpl) (s : ConcurrentOperationRunner)
    (w : Nat) :
    ∃ (g : Future → Future) (c : List (Operation × Call)), (∀ x, Same x (g x)) ∧
      startTask impl s w = { s with watchers := s.watchers.map g, calls := s.calls ++ c } := by
  unfold startTask
  split
  · exact ⟨fun x => x, [], fun x => ⟨rfl, rfl, rfl, rfl⟩, by simp⟩
  · split
    · exact ⟨fun x => x, [], fun x => ⟨rfl, rfl, rfl, rfl⟩, by simp⟩
    · refine ⟨fun g => if g.id = w then { g with started := true } else g, _, ?_, rfl⟩
      intro x
      by_cases hx : x.id = w
      · simp [hx, Same]
      · simp [hx, Same]

theorem startTask_canceled (impl : Operation → OperationImpl) (s : ConcurrentOperationRunner)
    (w : Nat) (hc : ∀ f ∈ s.watchers, f.canceled = true) : startTask impl s w = s := by
  unfold startTask
  split
  · rfl
  · next f hf =>
    have hm := List.mem_of_find?_eq_some hf
    simp [hc f hm]

theorem deliverFinished_eq (impl : Operation → OperationImpl) (s : ConcurrentOperationRunner)
    (w : Nat) :
    ((∀ f ∈ s.watchers, f.id ≠ w) ∧ deliverFinished impl s w = s) ∨
    ∃ f ∈ s.watchers, f.id = w ∧
      ∃ (g : Future → Future) (c : List (Operation × Call)), (∀ x, Same x (g x)) ∧
        deliverFinished impl s w = delivered impl s w f (s.watchers.map g) (s.calls ++ c) := by
  unfold deliverFinished
  split
  · next hf =>
    left
    refine ⟨?_, rfl⟩
    intro f hm
    have := List.find?_eq_none.1 hf f hm
    simpa using this
  · next f hf =>
    right
    have hm := List.mem_of_find?_eq_some hf
    have hid : f.id = w := by simpa using List.find?_some hf
    obtain ⟨g, c, hg, hs⟩ := startTask_eq impl s w
    refine ⟨f, hm, hid, g, c, hg, ?_⟩
    rw [hs]
    simp only [onOperationfinished, QHash.take, hid, delivered, remaining]

theorem mem_deleteWatcher {ws : List Future} {w : Nat} {f : Future} :
    f ∈ deleteWatcher ws w ↔ f ∈ ws ∧ f.id ≠ w := by
  simp [deleteWatcher]

theorem deleteWatcher_sublist (ws : List Future) (w : Nat) :
    List.Sublist (deleteWatcher ws w) ws :=
  List.filter_sublist ws

theorem remaining_sublist (s : ConcurrentOperationRunner) (w : Nat) (ws : List Future) :
    List.Sublist (remaining s w ws) ws := by
  unfold remaining
  split
  · exact (deleteWatcher_sublist _ _).trans (deleteWatcher_sublist _ _)
  · exact deleteWatcher_sublist _ _

theorem mem_remaining {s : ConcurrentOperationRunner} {w : Nat} {ws : List Future}
    {f : Future} :
    f ∈ remaining s w ws ↔ f ∈ ws ∧ f.id ≠ w ∧
      QHash.value s.m_operationWatchers (QHash.key s.m_operationWatchers w nullOperation)
        ≠ some f.id := by
  unfold remaining
  split
  · next t ht =>
    rw [mem_deleteWatcher, mem_deleteWatcher]
    constructor
    · rintro ⟨⟨h1, h2⟩, h3⟩
      exact ⟨h1, h2, fun e => h3 (Option.some.inj (ht.symm.trans e)).symm⟩
    · rintro ⟨h1, h2, h3⟩
      exact ⟨⟨h1, h2⟩, fun e => h3 (by rw [e, ht])⟩
  · next hn =>
    rw [mem_deleteWatcher]
    constructor
    · rintro ⟨h1, h2⟩
      exact ⟨h1, h2, by rw [hn]; simp⟩
    · rintro ⟨h1, h2, _⟩
      exact ⟨h1, h2⟩

theorem map_id_of_same {g : Future → Future} (hg : ∀ x, Same x (g x)) (ws : List Future) :
    (ws.map g).map Future.id = ws.map Future.id := by
  rw [List.map_map]
  apply List.map_congr_left
  intro x _
  exact (hg x).1

/-! ## Invariants of the bookkeeping -/

theorem inv_map {s : ConcurrentOperationRunner} (h : Inv s) {g : Future → Future}
    (hg : ∀ x, (g x).id = x.id) (c : List (Operation × Call)) :
    Inv { s with watchers := s.watchers.map g, calls := c } := by
  refine ⟨h.keysNodup, h.valuesNodup, ?_, ?_, ?_, h.resultsNodup⟩
  · intro p hp
    obtain ⟨f, hf, hid⟩ := h.pending p hp
    exact ⟨g f, List.mem_map_of_mem g hf, (hg f).trans hid⟩
  · show ((s.watchers.map g).map Future.id).Nodup
    have : (s.watchers.map g).map Future.id = s.watchers.map Future.id := by
      rw [List.map_map]
      apply List.map_congr_left
      intro x _
      exact hg x
    rw [this]
    exact h.idsNodup
  · intro f2 hf2
    obtain ⟨f, hf, rfl⟩ := List.mem_map.1 hf2
    show (g f).id < s.nextWatcher
    rw [hg f]
    exact h.fresh f hf

theorem linked_map {s : ConcurrentOperationRunner} (h : Linked s) {g : Future → Future}
    (hg : ∀ x, (g x).id = x.id ∧ (g x).operation = x.operation)
    (c : List (Operation × Call)) :
    Linked { s with watchers := s.watchers.map g, calls := c } := by
  refine ⟨?_, h.disjoint⟩
  intro f2 hf2
  obtain ⟨f, hf, rfl⟩ := List.mem_map.1 hf2
  show ((g f).operation, (g f).id) ∈ s.m_operationWatchers
  rw [(hg f).1, (hg f).2]
  exact h.registered f hf

theorem inv_delivered {s : ConcurrentOperationRunner} (h : Inv s)
    (impl : Operation → OperationImpl) (w : Nat) (f : Future) {g : Future → Future}
    (hg : ∀ x, (g x).id = x.id) (c : List (Operation × Call)) :
    Inv (delivered impl s w f (s.watchers.map g) c) := by
  refine ⟨QHash.nodup_keys_remove _ h.keysNodup, QHash.nodup_values_remove _ h.valuesNodup,
    ?_, ?_, ?_, QHash.nodup_keys_insert _ _ h.resultsNodup⟩
  · intro p hp
    have hp2 := QHash.mem_remove.1 hp
    obtain ⟨f0, hf0, hid⟩ := h.pending p hp2.1
    refine ⟨g f0, ?_, (hg f0).trans hid⟩
    apply mem_remaining.2
    refine ⟨List.mem_map_of_mem g hf0, ?_, ?_⟩
    · intro e
      have e2 : p.2 = w := by rw [← hid, ← hg f0]; exact e
      have hm : (p.1, w) ∈ s.m_operationWatchers := by rw [← e2]; exact hp2.1
      exact hp2.2 (QHash.key_of_mem h.valuesNodup hm).symm
    · intro e
      have e2 : (QHash.key s.m_operationWatchers w nullOperation, p.2) ∈
          s.m_operationWatchers := by
        apply QHash.mem_of_value
        rw [e, hg f0, hid]
      have hm : (p.1, p.2) ∈ s.m_operationWatchers := hp2.1
      exact hp2.2 (QHash.key_unique h.valuesNodup hm e2)
  · show ((remaining s w (s.watchers.map g)).map Future.id).Nodup
    have hsub : List.Sublist ((remaining s w (s.watchers.map g)).map Future.id)
        ((s.watchers.map g).map Future.id) :=
      List.Sublist.map Future.id (remaining_sublist s w _)
    have : (s.watchers.map g).map Future.id = s.watchers.map Future.id := by
      rw [List.map_map]
      apply List.map_congr_left
      intro x _
      exact hg x
    rw [this] at hsub
    exact List.Nodup.sublist hsub h.idsNodup
  · intro f2 hf2
    have hm := (mem_remaining.1 hf2).1
    obtain ⟨f0, hf0, rfl⟩ := List.mem_map.1 hm
    show (g f0).id < s.nextWatcher
    rw [hg f0]
    exact h.fresh f0 hf0

theorem linked_key_eq {s : ConcurrentOperationRunner} (h : Inv s) (hl : Linked s)
    {f : Future} (hf : f ∈ s.watchers) :
    QHash.key s.m_operationWatchers f.id nullOperation = f.operation :=
  QHash.key_of_mem h.valuesNodup (hl.registered f hf)

theorem linked_delivered {s : ConcurrentOperationRunner} (h : Inv s) (hl : Linked s)
    (impl : Operation → OperationImpl) {f : Future} (hf : f ∈ s.watchers)
    {g : Future → Future} (hg : ∀ x, (g x).id = x.id ∧ (g x).operation = x.operation)
    (c : List (Operation × Call)) :
    Linked (delivered impl s f.id f (s.watchers.map g) c) := by
  have hkey := linked_key_eq h hl hf
  constructor
  · intro f2 hf2
    have hm := mem_remaining.1 hf2
    obtain ⟨x, hx, rfl⟩ := List.mem_map.1 hm.1
    show ((g x).operation, (g x).id) ∈
      QHash.remove s.m_operationWatchers (QHash.key s.m_operationWatchers f.id nullOperation)
    rw [(hg x).1, (hg x).2, hkey]
    apply QHash.mem_remove.2
    refine ⟨hl.registered x hx, ?_⟩
    intro e
    have e1 : (f.operation, x.id) ∈ s.m_operationWatchers := by
      have := hl.registered x hx
      rw [show x.operation = f.operation from e] at this
      exact this
    have := QHash.value_unique h.keysNodup e1 (hl.registered f hf)
    exact hm.2.1 ((hg x).1.trans this)
  · intro op hop
    show op ∉ QHash.keys
      (QHash.remove s.m_operationWatchers (QHash.key s.m_operationWatchers f.id nullOperation))
    have hop2 : op = QHash.key s.m_operationWatchers f.id nullOperation ∨
        op ∈ QHash.keys s.m_results := QHash.mem_keys_insert.1 hop
    intro hk
    have hk2 := QHash.mem_keys_remove.1 hk
    rcases hop2 with e | e
    · exact hk2.2 e
    · exact hl.disjoint op e hk2.1

theorem cover_delivered {ops : List Operation} {s : ConcurrentOperationRunner}
    (h : Cover ops s) (impl : Operation → OperationImpl) (w : Nat) (f : Future)
    (ws : List Future) (c : List (Operation × Call)) :
    Cover ops (delivered impl s w f ws c) := by
  intro op hop
  by_cases e : op = QHash.key s.m_operationWatchers w nullOperation
  · right
    exact QHash.mem_keys_insert.2 (Or.inl e)
  · rcases h op hop with h1 | h1
    · left
      exact QHash.mem_keys_remove.2 ⟨h1, e⟩
    · right
      exact QHash.mem_keys_insert.2 (Or.inr h1)

/-! ## One event -/

theorem cancel_eq (s : ConcurrentOperationRunner) :
    cancel s = { s with watchers := s.watchers.map (cancelMark s), calls := s.calls } := rfl

theorem cancelMark_same (s : ConcurrentOperationRunner) (x : Future) :
    (cancelMark s x).id = x.id ∧ (cancelMark s x).operation = x.operation ∧
      (cancelMark s x).type = x.type := by
  unfold cancelMark
  split <;> exact ⟨rfl, rfl, rfl⟩

theorem inv_step {s : ConcurrentOperationRunner} (h : Inv s)
    (impl : Operation → OperationImpl) (e : Event) : Inv (step impl s e) := by
  cases e with
  | start w =>
    obtain ⟨g, c, hg, hs⟩ := startTask_eq impl s w
    show Inv (startTask impl s w)
    rw [hs]
    exact inv_map h (fun x => (hg x).1) _
  | finished w =>
    show Inv (deliverFinished impl s w)
    rcases deliverFinished_eq impl s w with ⟨_, hs⟩ | ⟨f, _, _, g, c, hg, hs⟩
    · rw [hs]; exact h
    · rw [hs]
      exact inv_delivered h impl w f (fun x => (hg x).1) _
  | cancel =>
    show Inv (cancel s)
    rw [cancel_eq]
    exact inv_map h (fun x => (cancelMark_same s x).1) _

theorem linked_step {s : ConcurrentOperationRunner} (h : Inv s) (hl : Linked s)
    (impl : Operation → OperationImpl) (e : Event) : Linked (step impl s e) := by
  cases e with
  | start w =>
    obtain ⟨g, c, hg, hs⟩ := startTask_eq impl s w
    show Linked (startTask impl s w)
    rw [hs]
    exact linked_map hl (fun x => ⟨(hg x).1, (hg x).2.1⟩) _
  | finished w =>
    show Linked (deliverFinished impl s w)
    rcases deliverFinished_eq impl s w with ⟨_, hs⟩ | ⟨f, hf, hid, g, c, hg, hs⟩
    · rw [hs]; exact hl
    · rw [hs]
      subst hid
      exact linked_delivered h hl impl hf (fun x => ⟨(hg x).1, (hg x).2.1⟩) _
  | cancel =>
    show Linked (cancel s)
    rw [cancel_eq]
    exact linked_map hl (fun x => ⟨(cancelMark_same s x).1, (cancelMark_same s x).2.1⟩) _

theorem cover_step {ops : List Operation} {s : ConcurrentOperationRunner} (h : Cover ops s)
    (impl : Operation → OperationImpl) (e : Event) : Cover ops (step impl s e) := by
  cases e with
  | start w =>
    obtain ⟨g, c, _, hs⟩ := startTask_eq impl s w
    show Cover ops (startTask impl s w)
    rw [hs]
    exact h
  | finished w =>
    show Cover ops (deliverFinished impl s w)
    rcases deliverFinished_eq impl s w with ⟨_, hs⟩ | ⟨f, _, _, g, c, _, hs⟩
    · rw [hs]; exact h
    · rw [hs]
      exact cover_delivered h impl w f _ _
  | cancel => exact h

/-- An event either leaves table and signal count alone, or is a callback, which emits
`finished()` exactly when it empties the table. -/
theorem step_cases (impl : Operation → OperationImpl) (s : ConcurrentOperationRunner)
    (e : Event) :
    ((step impl s e).finishedCount = s.finishedCount ∧
      (step impl s e).m_operationWatchers = s.m_operationWatchers ∧
      (step impl s e).m_results = s.m_results) ∨
    (∃ w, e = Event.finished w ∧
      (step impl s e).m_operationWatchers = QHash.remove s.m_operationWatchers
        (QHash.key s.m_operationWatchers w nullOperation) ∧
      (((step impl s e).finishedCount = s.finishedCount ∧
          (step impl s e).m_operationWatchers ≠ []) ∨
       ((step impl s e).finishedCount = s.finishedCount + 1 ∧
          (step impl s e).m_operationWatchers = []))) := by
  cases e with
  | start w =>
    obtain ⟨g, c, _, hs⟩ := startTask_eq impl s w
    left
    show (startTask impl s w).finishedCount = _ ∧ (startTask impl s w).m_operationWatchers = _ ∧
      (startTask impl s w).m_results = _
    rw [hs]
    exact ⟨rfl, rfl, rfl⟩
  | finished w =>
    rcases deliverFinished_eq impl s w with ⟨_, hs⟩ | ⟨f, _, _, g, c, _, hs⟩
    · left
      show (deliverFinished impl s w).finishedCount = _ ∧
        (deliverFinished impl s w).m_operationWatchers = _ ∧
        (deliverFinished impl s w).m_results = _
      rw [hs]
      exact ⟨rfl, rfl, rfl⟩
    · right
      refine ⟨w, rfl, ?_, ?_⟩
      · show (deliverFinished impl s w).m_operationWatchers = _
        rw [hs]
        rfl
      · show ((deliverFinished impl s w).finishedCount = _ ∧
            (deliverFinished impl s w).m_operationWatchers ≠ []) ∨
          ((deliverFinished impl s w).finishedCount = _ ∧
            (deliverFinished impl s w).m_operationWatchers = [])
        rw [hs]
        simp only [delivered]
        cases hT : QHash.remove s.m_operationWatchers
            (QHash.key s.m_operationWatchers w nullOperation) with
        | nil => right; simp
        | cons p t => left; simp
  | cancel => left; exact ⟨rfl, rfl, rfl⟩

theorem step_table_sub (impl : Operation → OperationImpl) (s : ConcurrentOperationRunner)
    (e : Event) : ∀ p ∈ (step impl s e).m_operationWatchers, p ∈ s.m_operationWatchers := by
  intro p hp
  rcases step_cases impl s e with ⟨_, h2, _⟩ | ⟨w, _, h2, _⟩
  · rw [h2] at hp; exact hp
  · rw [h2] at hp; exact (QHash.mem_remove.1 hp).1

theorem step_count_le (impl : Operation → OperationImpl) (s : ConcurrentOperationRunner)
    (e : Event) : s.finishedCount ≤ (step impl s e).finishedCount := by
  rcases step_cases impl s e with ⟨h1, _⟩ | ⟨w, _, _, ⟨h1, _⟩ | ⟨h1, _⟩⟩ <;> omega

/-- The callback of a watcher of the table takes its entry out. -/
theorem step_finished_removes {s : ConcurrentOperationRunner} (h : Inv s)
    (impl : Operation → OperationImpl) {p : Operation × Nat}
    (hp : p ∈ s.m_operationWatchers) :
    p ∉ (step impl s (Event.finished p.2)).m_operationWatchers := by
  show p ∉ (deliverFinished impl s p.2).m_operationWatchers
  rcases deliverFinished_eq impl s p.2 with ⟨hno, _⟩ | ⟨f, _, _, g, c, _, hs⟩
  · obtain ⟨f, hf, hid⟩ := h.pending p hp
    exact absurd hid (hno f hf)
  · rw [hs]
    intro hm
    have hm2 : p ∈ QHash.remove s.m_operationWatchers
        (QHash.key s.m_operationWatchers p.2 nullOperation) := hm
    have hk : QHash.key s.m_operationWatchers p.2 nullOperation = p.1 :=
      QHash.key_of_mem h.valuesNodup (show (p.1, p.2) ∈ s.m_operationWatchers from hp)
    exact (QHash.mem_remove.1 hm2).2 hk.symm

/-! ## The event loop -/

theorem exec_nil (impl : Operation → OperationImpl) (s : ConcurrentOperationRunner) :
    exec impl s [] = (s, false) := rfl

theorem exec_cons_quit (impl : Operation → OperationImpl) (s : ConcurrentOperationRunner)
    (e : Event) (es : List Event) (h : s.finishedCount < (step impl s e).finishedCount) :
    exec impl s (e :: es) = (step impl s e, true) := by
  simp [exec, h]

theorem exec_cons_wait (impl : Operation → OperationImpl) (s : ConcurrentOperationRunner)
    (e : Event) (es : List Event) (h : ¬ s.finishedCount < (step impl s e).finishedCount) :
    exec impl s (e :: es) = exec impl (step impl s e) es := by
  simp [exec, h]

/-- What every event preserves holds when the loop stops. -/
theorem exec_preserves (impl : Operation → OperationImpl)
    (P : ConcurrentOperationRunner → Prop)
    (hstep : ∀ s e, P s → P (step impl s e)) :
    ∀ (es : List Event) (s : ConcurrentOperationRunner), P s → P (exec impl s es).1 := by
  intro es
  induction es with
  | nil => intro s hs; exact hs
  | cons e es ih =>
    intro s hs
    by_cases hq : s.finishedCount < (step impl s e).finishedCount
    · rw [exec_cons_quit impl s e es hq]
      exact hstep s e hs
    · rw [exec_cons_wait impl s e es hq]
      exact ih _ (hstep s e hs)

theorem exec_inv (impl : Operation → OperationImpl) (es : List Event)
    {s : ConcurrentOperationRunner} (h : Inv s) : Inv (exec impl s es).1 :=
  exec_preserves impl Inv (fun _ e hs => inv_step hs impl e) es s h

theorem exec_linked (impl : Operation → OperationImpl) (es : List Event)
    {s : ConcurrentOperationRunner} (h : Inv s) (hl : Linked s) :
    Linked (exec impl s es).1 :=
  (exec_preserves impl (fun t => Inv t ∧ Linked t)
    (fun _ e hs => ⟨inv_step hs.1 impl e, linked_step hs.1 hs.2 impl e⟩) es s ⟨h, hl⟩).2

theorem exec_cover (impl : Operation → OperationImpl) (es : List Event)
    {ops : List Operation} {s : ConcurrentOperationRunner} (h : Cover ops s) :
    Cover ops (exec impl s es).1 :=
  exec_preserves impl (Cover ops) (fun _ e hs => cover_step hs impl e) es s h

/-- The loop quits at the first emission of `finished()`, and the table is empty then. -/
theorem exec_quit (impl : Operation → OperationImpl) :
    ∀ (es : List Event) (s : ConcurrentOperationRunner), (exec impl s es).2 = true →
      (exec impl s es).1.m_operationWatchers = [] ∧
      (exec impl s es).1.finishedCount = s.finishedCount + 1 := by
  intro es
  induction es with
  | nil => intro s h; simp [exec_nil] at h
  | cons e es ih =>
    intro s h
    by_cases hq : s.finishedCount < (step impl s e).finishedCount
    · rw [exec_cons_quit impl s e es hq]
      rcases step_cases impl s e with ⟨h1, _⟩ | ⟨w, _, _, ⟨h1, _⟩ | ⟨h1, h2⟩⟩
      · omega
      · omega
      · exact ⟨h2, h1⟩
    · rw [exec_cons_wait impl s e es hq] at h ⊢
      obtain ⟨h1, h2⟩ := ih _ h
      refine ⟨h1, ?_⟩
      have := step_count_le impl s e
      omega

/-- While the loop waits, `finished()` has not been emitted. -/
theorem exec_wait (impl : Operation → OperationImpl) :
    ∀ (es : List Event) (s : ConcurrentOperationRunner), (exec impl s es).2 = false →
      (exec impl s es).1.finishedCount = s.finishedCount := by
  intro es
  induction es with
  | nil => intro s _; rfl
  | cons e es ih =>
    intro s h
    by_cases hq : s.finishedCount < (step impl s e).finishedCount
    · rw [exec_cons_quit impl s e es hq] at h
      cases h
    · rw [exec_cons_wait impl s e es hq] at h ⊢
      have := step_count_le impl s e
      have := ih _ h
      omega

/-- The loop quits once the callback of every watcher of the table has arrived. -/
theorem exec_live (impl : Operation → OperationImpl) :
    ∀ (es : List Event) (s : ConcurrentOperationRunner), Inv s →
      s.m_operationWatchers ≠ [] →
      (∀ p ∈ s.m_operationWatchers, Event.finished p.2 ∈ es) →
      (exec impl s es).2 = true := by
  intro es
  induction es with
  | nil =>
    intro s _ hne hall
    cases hT : s.m_operationWatchers with
    | nil => exact absurd hT hne
    | cons p t =>
      have := hall p (by rw [hT]; exact List.mem_cons_self p t)
      cases this
  | cons e es ih =>
    intro s hinv hne hall
    by_cases hq : s.finishedCount < (step impl s e).finishedCount
    · rw [exec_cons_quit impl s e es hq]
    · rw [exec_cons_wait impl s e es hq]
      apply ih _ (inv_step hinv impl e)
      · rcases step_cases impl s e with ⟨_, h2, _⟩ | ⟨w, _, _, ⟨_, h2⟩ | ⟨h1, _⟩⟩
        · rw [h2]; exact hne
        · exact h2
        · omega
      · intro p hp
        have hp0 := step_table_sub impl s e p hp
        rcases List.mem_cons.1 (hall p hp0) with he | he
        · rw [← he] at hp
          exact absurd hp (step_finished_removes hinv impl hp0)
        · exact he

/-! ## The outcome recorded for a watcher -/

theorem recorded_congr (impl : Operation → OperationImpl) {f f2 : Future}
    (h1 : f2.operation = f.operation) (h2 : f2.type = f.type) (h3 : f2.canceled = f.canceled) :
    recorded impl f2 = recorded impl f := by
  unfold recorded
  rw [h1, h2, h3]

theorem eq_of_id {s : ConcurrentOperationRunner} (h : Inv s) {f f2 : Future}
    (hf : f ∈ s.watchers) (hf2 : f2 ∈ s.watchers) (hid : f2.id = f.id) : f2 = f :=
  List.inj_on_of_nodup_map h.idsNodup hf2 hf hid

theorem canceledBefore_cons_ne (e : Event) (es : List Event) (w : Nat)
    (he : e ≠ Event.finished w) :
    canceledBefore (e :: es) w = (decide (e = Event.cancel) || canceledBefore es w) := by
  cases e with
  | start v => simp [canceledBefore]
  | finished v =>
    have : ¬ v = w := fun e2 => he (by rw [e2])
    simp [canceledBefore, this]
  | cancel => simp [canceledBefore]

theorem canceledBefore_cons_self (es : List Event) (w : Nat) :
    canceledBefore (Event.finished w :: es) w = false := by
  simp [canceledBefore]

/-- An outstanding watcher either stays outstanding over an event (canceled by a
`cancel()`), or the event is its callback and its outcome is recorded. -/
theorem step_track {s : ConcurrentOperationRunner} (h : Inv s) (hl : Linked s)
    (impl : Operation → OperationImpl) (e : Event) {f : Future} (hf : f ∈ s.watchers) :
    (e ≠ Event.finished f.id ∧ ∃ f2 ∈ (step impl s e).watchers,
        f2.id = f.id ∧ f2.operation = f.operation ∧ f2.type = f.type ∧
        f2.canceled = (f.canceled || decide (e = Event.cancel))) ∨
    (e = Event.finished f.id ∧
      QHash.value (step impl s e).m_results f.operation = some (recorded impl f)) := by
  cases e with
  | start w =>
    left
    obtain ⟨g, c, hg, hs⟩ := startTask_eq impl s w
    refine ⟨by simp, g f, ?_, (hg f).1, (hg f).2.1, (hg f).2.2.1, ?_⟩
    · show g f ∈ (startTask impl s w).watchers
      rw [hs]
      exact List.mem_map_of_mem g hf
    · rw [(hg f).2.2.2]; simp
  | cancel =>
    left
    refine ⟨by simp, cancelMark s f, List.mem_map_of_mem _ hf, (cancelMark_same s f).1,
      (cancelMark_same s f).2.1, (cancelMark_same s f).2.2, ?_⟩
    have hv : f.id ∈ QHash.values s.m_operationWatchers :=
      List.mem_map_of_mem Prod.snd (hl.registered f hf)
    simp [cancelMark, hv]
  | finished w =>
    by_cases hw : w = f.id
    · right
      subst hw
      refine ⟨rfl, ?_⟩
      show QHash.value (deliverFinished impl s f.id).m_results f.operation = _
      rcases deliverFinished_eq impl s f.id with ⟨hno, _⟩ | ⟨f0, hf0, hid, g, c, _, hs⟩
      · exact absurd rfl (hno f hf)
      · have e0 : f0 = f := eq_of_id h hf hf0 hid
        subst e0
        rw [hs]
        show QHash.value (QHash.insert s.m_results
          (QHash.key s.m_operationWatchers f0.id nullOperation) (recorded impl f0))
          f0.operation = _
        rw [linked_key_eq h hl hf]
        exact QHash.value_insert_self _ _ _
    · left
      have hne : Event.finished w ≠ Event.finished f.id := by
        intro e2
        exact hw (Event.finished.inj e2)
      refine ⟨hne, ?_⟩
      show ∃ f2 ∈ (deliverFinished impl s w).watchers, _
      rcases deliverFinished_eq impl s w with ⟨_, hs⟩ | ⟨f0, hf0, hid, g, c, hg, hs⟩
      · rw [hs]
        exact ⟨f, hf, rfl, rfl, rfl, by simp⟩
      · rw [hs]
        refine ⟨g f, ?_, (hg f).1, (hg f).2.1, (hg f).2.2.1, ?_⟩
        · show g f ∈ remaining s w (s.watchers.map g)
          apply mem_remaining.2
          refine ⟨List.mem_map_of_mem g hf, ?_, ?_⟩
          · rw [(hg f).1]
            exact fun e2 => hw e2.symm
          · have hk : QHash.key s.m_operationWatchers w nullOperation = f0.operation := by
              rw [← hid]
              exact linked_key_eq h hl hf0
            rw [hk, QHash.value_of_mem h.keysNodup (hl.registered f0 hf0), (hg f).1, hid]
            intro e2
            exact hw (Option.some.inj e2)
        · rw [(hg f).2.2.2]; simp

/-- A recorded outcome is never overwritten by a later event. -/
theorem step_results_stay {s : ConcurrentOperationRunner} (h : Inv s) (hl : Linked s)
    (impl : Operation → OperationImpl) (e : Event) {op : Operation} {b : Bool}
    (hv : QHash.value s.m_results op = some b) :
    QHash.value (step impl s e).m_results op = some b := by
  cases e with
  | start w =>
    obtain ⟨g, c, _, hs⟩ := startTask_eq impl s w
    show QHash.value (startTask impl s w).m_results op = _
    rw [hs]
    exact hv
  | cancel => exact hv
  | finished w =>
    show QHash.value (deliverFinished impl s w).m_results op = _
    rcases deliverFinished_eq impl s w with ⟨_, hs⟩ | ⟨f0, hf0, hid, g, c, _, hs⟩
    · rw [hs]; exact hv
    · rw [hs]
      show QHash.value (QHash.insert s.m_results
        (QHash.key s.m_operationWatchers w nullOperation) (recorded impl f0)) op = _
      have hk : QHash.key s.m_operationWatchers w nullOperation = f0.operation := by
        rw [← hid]
        exact linked_key_eq h hl hf0
      have hne : op ≠ f0.operation := by
        intro e2
        apply hl.disjoint op (QHash.mem_keys_of_value hv)
        rw [e2]
        exact List.mem_map_of_mem Prod.fst (hl.registered f0 hf0)
      rw [hk, QHash.value_insert_ne _ _ hne]
      exact hv

/-- When the loop quits, every outcome recorded before is still there, and every
watcher that was outstanding has its outcome recorded under its operation: `false` if
it was canceled before its callback, else what its future holds. -/
theorem exec_values (impl : Operation → OperationImpl) :
    ∀ (es : List Event) (s : ConcurrentOperationRunner), Inv s → Linked s →
      (exec impl s es).2 = true →
      (∀ op b, QHash.value s.m_results op = some b →
        QHash.value (exec impl s es).1.m_results op = some b) ∧
      (∀ f ∈ s.watchers, QHash.value (exec impl s es).1.m_results f.operation =
        some (recorded impl { f with canceled := f.canceled || canceledBefore es f.id })) := by
  intro es
  induction es with
  | nil => intro s _ _ hq; simp [exec_nil] at hq
  | cons e es ih =>
    intro s hinv hl hquit
    by_cases hq : s.finishedCount < (step impl s e).finishedCount
    · rw [exec_cons_quit impl s e es hq]
      refine ⟨fun op b hv => step_results_stay hinv hl impl e hv, ?_⟩
      intro f hf
      have hT : (step impl s e).m_operationWatchers = [] := by
        rcases step_cases impl s e with ⟨h1, _⟩ | ⟨w, _, _, ⟨h1, _⟩ | ⟨_, h2⟩⟩
        · omega
        · omega
        · exact h2
      rcases step_track hinv hl impl e hf with ⟨_, f2, hf2, _⟩ | ⟨he, hv⟩
      · have := (linked_step hinv hl impl e).registered f2 hf2
        rw [hT] at this
        cases this
      · rw [hv, he, canceledBefore_cons_self]
        congr 1
        apply recorded_congr <;> simp
    · rw [exec_cons_wait impl s e es hq] at hquit ⊢
      obtain ⟨ih1, ih2⟩ := ih _ (inv_step hinv impl e) (linked_step hinv hl impl e) hquit
      refine ⟨fun op b hv => ih1 op b (step_results_stay hinv hl impl e hv), ?_⟩
      intro f hf
      rcases step_track hinv hl impl e hf with ⟨hne, f2, hf2, h1, h2, h3, h4⟩ | ⟨he, hv⟩
      · have := ih2 f2 hf2
        rw [h2] at this
        rw [this, canceledBefore_cons_ne e es f.id hne]
        congr 1
        apply recorded_congr
        · rfl
        · exact h3
        · simp [h4, h1, Bool.or_assoc]
      · rw [ih1 _ _ hv, he, canceledBefore_cons_self]
        congr 1
        apply recorded_congr <;> simp

/-! ## The dispatch loop -/

theorem mem_newFutures {base : Nat} {type : OperationType} :
    ∀ {ops : List Operation} {f : Future}, f ∈ newFutures base type ops →
      f.canceled = false ∧ f.started = false ∧ f.type = type ∧
      ∃ i, ∃ hi : i < ops.length, f.id = base + i ∧ f.operation = ops[i] := by
  intro ops
  induction ops generalizing base with
  | nil => intro f hf; cases hf
  | cons a t ih =>
    intro f hf
    rcases List.mem_cons.1 hf with rfl | hf2
    · exact ⟨rfl, rfl, rfl, 0, Nat.succ_pos _, rfl, rfl⟩
    · obtain ⟨h1, h2, h3, i, hi, h4, h5⟩ := ih hf2
      refine ⟨h1, h2, h3, i + 1, Nat.succ_lt_succ hi, ?_, ?_⟩
      · rw [h4]; omega
      · rw [h5]; rfl

theorem newFutures_mem (base : Nat) (type : OperationType) :
    ∀ (ops : List Operation) (i : Nat) (hi : i < ops.length),
      ({ id := base + i, operation := ops[i], type := type, canceled := false,
         started := false } : Future) ∈ newFutures base type ops := by
  intro ops
  induction ops generalizing base with
  | nil => intro i hi; cases hi
  | cons a t ih =>
    intro i hi
    cases i with
    | zero => exact List.mem_cons_self _ _
    | succ j =>
      have := ih (base + 1) j (Nat.lt_of_succ_lt_succ hi)
      have e : base + 1 + j = base + (j + 1) := by omega
      rw [e] at this
      exact List.mem_cons_of_mem _ this

theorem dispatch_fields (s : ConcurrentOperationRunner) :
    ∀ (ops : List Operation),
      (ops.foldl dispatch s).m_results = s.m_results ∧
      (ops.foldl dispatch s).finishedCount = s.finishedCount ∧
      (ops.foldl dispatch s).calls = s.calls ∧
      (ops.foldl dispatch s).m_type = s.m_type ∧
      (ops.foldl dispatch s).m_operations = s.m_operations ∧
      (ops.foldl dispatch s).watchers = s.watchers ++ newFutures s.nextWatcher s.m_type ops ∧
      (∀ x, x ∈ QHash.keys (ops.foldl dispatch s).m_operationWatchers ↔
        x ∈ ops ∨ x ∈ QHash.keys s.m_operationWatchers) := by
  intro ops
  induction ops generalizing s with
  | nil => exact ⟨rfl, rfl, rfl, rfl, rfl, by simp [newFutures], by simp⟩
  | cons a t ih =>
    obtain ⟨h1, h2, h3, h4, h5, h6, h7⟩ := ih (dispatch s a)
    refine ⟨h1, h2, h3, h4, h5, ?_, ?_⟩
    · rw [List.foldl_cons, h6]
      simp [dispatch, newFutures]
    · intro x
      rw [List.foldl_cons, h7 x]
      show x ∈ t ∨ x ∈ QHash.keys (QHash.insert s.m_operationWatchers a s.nextWatcher) ↔ _
      rw [QHash.mem_keys_insert, List.mem_cons]
      constructor
      · rintro (h | h | h)
        · exact Or.inl (Or.inr h)
        · exact Or.inl (Or.inl h)
        · exact Or.inr h
      · rintro ((h | h) | h)
        · exact Or.inr (Or.inl h)
        · exact Or.inl h
        · exact Or.inr (Or.inr h)

theorem inv_dispatch {s : ConcurrentOperationRunner} (h : Inv s) (a : Operation) :
    Inv (dispatch s a) := by
  have hfresh : s.nextWatcher ∉ s.watchers.map Future.id := by
    intro hm
    obtain ⟨f, hf, hid⟩ := List.mem_map.1 hm
    have := h.fresh f hf
    omega
  refine ⟨QHash.nodup_keys_insert _ _ h.keysNodup, ?_, ?_, ?_, ?_, h.resultsNodup⟩
  · show (s.nextWatcher ::
      QHash.values (QHash.remove s.m_operationWatchers a)).Nodup
    refine List.nodup_cons.2 ⟨?_, QHash.nodup_values_remove _ h.valuesNodup⟩
    intro hm
    obtain ⟨p, hp, hp2⟩ := List.mem_map.1 hm
    obtain ⟨f, hf, hid⟩ := h.pending p (QHash.mem_remove.1 hp).1
    have := h.fresh f hf
    omega
  · intro p hp
    rcases List.mem_cons.1 hp with rfl | hp2
    · exact ⟨_, List.mem_append_right _ (List.mem_singleton_self _), rfl⟩
    · obtain ⟨f, hf, hid⟩ := h.pending p (QHash.mem_remove.1 hp2).1
      exact ⟨f, List.mem_append_left _ hf, hid⟩
  · show ((s.watchers ++ _).map Future.id).Nodup
    rw [List.map_append]
    apply List.Nodup.append h.idsNodup (by simp)
    intro x hx1 hx2
    have : x = s.nextWatcher := by simpa using hx2
    rw [this] at hx1
    exact hfresh hx1
  · intro f hf
    show f.id < s.nextWatcher + 1
    rcases List.mem_append.1 hf with h1 | h1
    · have := h.fresh f h1
      omega
    · have : f = _ := List.mem_singleton.1 h1
      rw [this]
      exact Nat.lt_succ_self _

theorem inv_dispatchList {s : ConcurrentOperationRunner} (h : Inv s) (ops : List Operation) :
    Inv (ops.foldl dispatch s) := by
  induction ops generalizing s with
  | nil => exact h
  | cons a t ih => exact ih (inv_dispatch h a)

theorem linked_dispatch {s : ConcurrentOperationRunner} (h : Linked s) {a : Operation}
    (ha : a ∉ QHash.keys s.m_operationWatchers) (hr : s.m_results = []) :
    Linked (dispatch s a) := by
  have hT : (dispatch s a).m_operationWatchers = (a, s.nextWatcher) :: s.m_operationWatchers := by
    show QHash.insert _ _ _ = _
    unfold QHash.insert
    rw [QHash.remove_eq_self ha]
  constructor
  · intro f hf
    rw [hT]
    rcases List.mem_append.1 hf with h1 | h1
    · exact List.mem_cons_of_mem _ (h.registered f h1)
    · have : f = _ := List.mem_singleton.1 h1
      rw [this]
      exact List.mem_cons_self _ _
  · intro op hop
    have : (dispatch s a).m_results = [] := hr
    rw [this] at hop
    cases hop

theorem linked_dispatchList {s : ConcurrentOperationRunner} (h : Linked s)
    (hr : s.m_results = []) :
    ∀ (ops : List Operation), ops.Nodup →
      (∀ a ∈ ops, a ∉ QHash.keys s.m_operationWatchers) → Linked (ops.foldl dispatch s) := by
  intro ops
  induction ops generalizing s with
  | nil => intro _ _; exact h
  | cons a t ih =>
    intro hd hk
    have hd2 := List.nodup_cons.1 hd
    apply ih (linked_dispatch h (hk a (List.mem_cons_self a t)) hr) hr hd2.2
    intro b hb hm
    rcases QHash.mem_keys_insert.1 hm with e | e
    · rw [e] at hb
      exact hd2.1 hb
    · exact hk b (List.mem_cons_of_mem a hb) e

theorem within_step {ops : List Operation} {s : ConcurrentOperationRunner} (h : Inv s)
    (hl : Linked s) (hw : Within ops s) (impl : Operation → OperationImpl) (e : Event) :
    Within ops (step impl s e) := by
  cases e with
  | start w =>
    obtain ⟨g, c, _, hs⟩ := startTask_eq impl s w
    show Within ops (startTask impl s w)
    rw [hs]
    exact hw
  | cancel => exact hw
  | finished w =>
    show Within ops (deliverFinished impl s w)
    rcases deliverFinished_eq impl s w with ⟨_, hs⟩ | ⟨f0, hf0, hid, g, c, _, hs⟩
    · rw [hs]; exact hw
    · rw [hs]
      have hk : QHash.key s.m_operationWatchers w nullOperation = f0.operation := by
        rw [← hid]
        exact linked_key_eq h hl hf0
      constructor
      · intro op hop
        rcases QHash.mem_keys_insert.1 hop with e | e
        · rw [e, hk]
          exact hw.2 _ (List.mem_map_of_mem Prod.fst (hl.registered f0 hf0))
        · exact hw.1 op e
      · intro op hop
        exact hw.2 op (QHash.mem_keys_remove.1 hop).1

theorem exec_within (impl : Operation → OperationImpl) (es : List Event)
    {ops : List Operation} {s : ConcurrentOperationRunner} (h : Inv s) (hl : Linked s)
    (hw : Within ops s) : Within ops (exec impl s es).1 :=
  (exec_preserves impl (fun t => Inv t ∧ Linked t ∧ Within ops t)
    (fun _ e hs => ⟨inv_step hs.1 impl e, linked_step hs.1 hs.2.1 impl e,
      within_step hs.1 hs.2.1 hs.2.2 impl e⟩) es s ⟨h, hl, hw⟩).2.2

/-! ## `run()` -/

theorem reset_watchers {s : ConcurrentOperationRunner} (hno : NoOrphan s) :
    (reset s).watchers = [] := by
  show s.watchers.filter _ = []
  apply List.filter_eq_nil_iff.2
  intro f hf
  simp [hno f hf]

/-- The state in which `run()` enters `loop.exec()`. -/
theorem ready (s : ConcurrentOperationRunner) (hno : NoOrphan s) :
    Inv (dispatchAll (reset s)) ∧
    Cover s.m_operations (dispatchAll (reset s)) ∧
    (dispatchAll (reset s)).m_results = [] ∧
    (dispatchAll (reset s)).finishedCount = s.finishedCount ∧
    (dispatchAll (reset s)).calls = s.calls ∧
    (dispatchAll (reset s)).watchers = newFutures s.nextWatcher s.m_type s.m_operations ∧
    (∀ x, x ∈ QHash.keys (dispatchAll (reset s)).m_operationWatchers ↔ x ∈ s.m_operations) ∧
    (s.m_operations.Nodup → Linked (dispatchAll (reset s))) := by
  have hw : (reset s).watchers = [] := reset_watchers hno
  have hinv : Inv (reset s) := by
    refine ⟨List.nodup_nil, List.nodup_nil, ?_, ?_, ?_, List.nodup_nil⟩
    · intro p hp
      cases hp
    · rw [hw]
      exact List.nodup_nil
    · intro f hf
      rw [hw] at hf
      cases hf
  have hl : Linked (reset s) := by
    constructor
    · intro f hf
      rw [hw] at hf
      cases hf
    · intro op hop
      cases hop
  obtain ⟨h1, h2, h3, _, _, h6, h7⟩ := dispatch_fields (reset s) s.m_operations
  have hkeys : ∀ x, x ∈ QHash.keys (dispatchAll (reset s)).m_operationWatchers ↔
      x ∈ s.m_operations := by
    intro x
    have := h7 x
    constructor
    · intro hx
      rcases this.1 hx with h | h
      · exact h
      · cases h
    · intro hx
      exact this.2 (Or.inl hx)
  refine ⟨inv_dispatchList hinv _, ?_, h1, h2, h3, ?_, hkeys, ?_⟩
  · intro op hop
    exact Or.inl ((hkeys op).2 hop)
  · show (s.m_operations.foldl dispatch (reset s)).watchers = _
    rw [h6, hw]
    rfl
  · intro hd
    exact linked_dispatchList hl rfl _ hd (fun a _ ha => by cases ha)

theorem run_empty (impl : Operation → OperationImpl) (s : ConcurrentOperationRunner)
    (es : List Event) (h : s.m_operations = []) :
    run impl s es = (reset s, some []) := by
  have : dispatchAll (reset s) = reset s := by
    show s.m_operations.foldl dispatch (reset s) = reset s
    rw [h]
    rfl
  unfold run
  rw [this]
  rfl

theorem run_nonempty (impl : Operation → OperationImpl) (s : ConcurrentOperationRunner)
    (es : List Event) (h : s.m_operations ≠ []) :
    run impl s es =
      ((exec impl (dispatchAll (reset s)) es).1,
        if (exec impl (dispatchAll (reset s)) es).2
        then some (exec impl (dispatchAll (reset s)) es).1.m_results else none) := by
  have hne : (dispatchAll (reset s)).m_operationWatchers ≠ [] := by
    cases hops : s.m_operations with
    | nil => exact absurd hops h
    | cons a t =>
      have := ((dispatch_fields (reset s) s.m_operations).2.2.2.2.2.2 a).2
        (Or.inl (by rw [hops]; exact List.mem_cons_self a t))
      intro e
      have e2 : (s.m_operations.foldl dispatch (reset s)).m_operationWatchers = [] := e
      rw [e2] at this
      cases this
  cases hT : (dispatchAll (reset s)).m_operationWatchers with
  | nil => exact absurd hT hne
  | cons p t => simp [run, hT]

/-- The call of `run()` returns once the callback of every dispatched watcher has arrived. -/
theorem run_returns (impl : Operation → OperationImpl) (s : ConcurrentOperationRunner)
    (es : List Event) (hno : NoOrphan s)
    (hall : ∀ i, i < s.m_operations.length → Event.finished (s.nextWatcher + i) ∈ es) :
    ∃ R, (run impl s es).2 = some R := by
  by_cases hops : s.m_operations = []
  · rw [run_empty impl s es hops]
    exact ⟨[], rfl⟩
  · rw [run_nonempty impl s es hops]
    obtain ⟨hinv, _, _, _, _, hW, hkeys, _⟩ := ready s hno
    have hlive : (exec impl (dispatchAll (reset s)) es).2 = true := by
      apply exec_live impl es _ hinv
      · cases hl : s.m_operations with
        | nil => exact absurd hl hops
        | cons a t =>
          have := (hkeys a).2 (by rw [hl]; exact List.mem_cons_self a t)
          intro e
          rw [e] at this
          cases this
      · intro p hp
        obtain ⟨f, hf, hid⟩ := hinv.pending p hp
        rw [hW] at hf
        obtain ⟨_, _, _, i, hi, h4, _⟩ := mem_newFutures hf
        rw [← hid, h4]
        exact hall i hi
    rw [hlive]
    exact ⟨_, rfl⟩

/-- What `run()` returns for non-empty operations: the results at the moment the loop
quits, which is the one emission of `finished()`, with the table empty and an outcome
recorded for every operation. -/
theorem run_state (impl : Operation → OperationImpl) (s : ConcurrentOperationRunner)
    (es : List Event) (hno : NoOrphan s) (hops : s.m_operations ≠ [])
    (R : QHash Operation Bool) (hR : (run impl s es).2 = some R) :
    (exec impl (dispatchAll (reset s)) es).2 = true ∧
    (run impl s es).1 = (exec impl (dispatchAll (reset s)) es).1 ∧
    R = (run impl s es).1.m_results ∧
    (run impl s es).1.m_operationWatchers = [] ∧
    (run impl s es).1.finishedCount = s.finishedCount + 1 ∧
    (∀ op ∈ s.m_operations, op ∈ QHash.keys R) := by
  obtain ⟨_, hcover, _, hcount, _, _, _, _⟩ := ready s hno
  rw [run_nonempty impl s es hops] at hR ⊢
  cases hq : (exec impl (dispatchAll (reset s)) es).2 with
  | false =>
    rw [hq] at hR
    cases hR
  | true =>
    rw [hq] at hR
    have hR2 : (exec impl (dispatchAll (reset s)) es).1.m_results = R := by
      simpa using hR
    obtain ⟨hT, hc⟩ := exec_quit impl es _ hq
    refine ⟨rfl, rfl, hR2.symm, hT, by rw [hc, hcount], ?_⟩
    intro op hop
    rcases exec_cover impl es hcover op hop with h | h
    · rw [hT] at h
      cases h
    · rw [← hR2]
      exact h

/-- The hash `run()` returns over pairwise-distinct operations: its keys are the
operations, and each operation carries the outcome of its own watcher. -/
theorem run_spec (impl : Operation → OperationImpl) (s : ConcurrentOperationRunner)
    (es : List Event) (hno : NoOrphan s) (hd : s.m_operations.Nodup)
    (R : QHash Operation Bool) (hR : (run impl s es).2 = some R) :
    (QHash.keys R).Perm s.m_operations ∧
    ∀ (i : Nat) (hi : i < s.m_operations.length),
      QHash.value R s.m_operations[i] =
        some (recorded impl
          { id := s.nextWatcher + i, operation := s.m_operations[i], type := s.m_type,
            canceled := canceledBefore es (s.nextWatcher + i), started := false }) := by
  by_cases hops : s.m_operations = []
  · rw [run_empty impl s es hops] at hR
    have hR2 : R = [] := by simpa using hR.symm
    constructor
    · rw [hR2, hops]
      exact List.Perm.refl _
    · intro i hi
      rw [hops] at hi
      cases hi
  · obtain ⟨hquit, hst, hRe, hT, _, hall⟩ := run_state impl s es hno hops R hR
    obtain ⟨hinv, _, hres, _, _, hW, hkeys, hlinked⟩ := ready s hno
    have hl := hlinked hd
    have hwithin : Within s.m_operations (dispatchAll (reset s)) := by
      constructor
      · intro op hop
        rw [hres] at hop
        cases hop
      · intro op hop
        exact (hkeys op).1 hop
    have hRx : (exec impl (dispatchAll (reset s)) es).1.m_results = R := by
      rw [← hst]
      exact hRe.symm
    have hfin := (exec_within impl es hinv hl hwithin).1
    have hnd := (exec_inv impl es hinv).resultsNodup
    rw [hRx] at hfin hnd
    constructor
    · apply (List.perm_ext_iff_of_nodup hnd hd).2
      intro a
      exact ⟨fun ha => hfin a ha, fun ha => hall a ha⟩
    · intro i hi
      have hmem := newFutures_mem s.nextWatcher s.m_type s.m_operations i hi
      rw [← hW] at hmem
      have := (exec_values impl es _ hinv hl hquit).2 _ hmem
      rw [hRx] at this
      rw [this]
      rfl

/-- When `run()` over pairwise-distinct operations returns, no watcher is outstanding. -/
theorem run_no_outstanding (impl : Operation → OperationImpl) (s : ConcurrentOperationRunner)
    (es : List Event) (hno : NoOrphan s) (hd : s.m_operations.Nodup)
    (R : QHash Operation Bool) (hR : (run impl s es).2 = some R) :
    (run impl s es).1.watchers = [] := by
  by_cases hops : s.m_operations = []
  · rw [run_empty impl s es hops]
    exact reset_watchers hno
  · obtain ⟨_, hst, _, hT, _, _⟩ := run_state impl s es hno hops R hR
    obtain ⟨hinv, _, _, _, _, _, _, hlinked⟩ := ready s hno
    have hl := exec_linked impl es hinv (hlinked hd)
    rw [← hst] at hl
    apply List.eq_nil_iff_forall_not_mem.2
    intro f hf
    have := hl.registered f hf
    rw [hT] at this
    cases this

/-! ## Cancellation -/

theorem allCanceled_step {s : ConcurrentOperationRunner} (h : AllCanceled s)
    (impl : Operation → OperationImpl) (e : Event) :
    AllCanceled (step impl s e) ∧ (step impl s e).calls = s.calls := by
  cases e with
  | start w =>
    show AllCanceled (startTask impl s w) ∧ (startTask impl s w).calls = s.calls
    rw [startTask_canceled impl s w h]
    exact ⟨h, rfl⟩
  | cancel =>
    refine ⟨?_, rfl⟩
    intro f hf
    obtain ⟨x, hx, rfl⟩ := List.mem_map.1 hf
    have := h x hx
    by_cases hv : x.id ∈ QHash.values s.m_operationWatchers
    · simp [hv]
    · simp [hv, this]
  | finished w =>
    show AllCanceled (deliverFinished impl s w) ∧ (deliverFinished impl s w).calls = s.calls
    constructor
    · rcases deliverFinished_eq impl s w with ⟨_, hs⟩ | ⟨f0, _, _, g, c, hg, hs⟩
      · rw [hs]; exact h
      · rw [hs]
        intro f hf
        have hm := (mem_remaining.1 hf).1
        obtain ⟨x, hx, rfl⟩ := List.mem_map.1 hm
        rw [(hg x).2.2.2]
        exact h x hx
    · unfold deliverFinished
      split
      · rfl
      · rw [startTask_canceled impl s w h]
        rfl

/-- Once every outstanding watcher is canceled, no action is invoked any more. -/
theorem exec_calls_canceled (impl : Operation → OperationImpl) (es : List Event)
    {s : ConcurrentOperationRunner} (h : AllCanceled s) :
    (exec impl s es).1.calls = s.calls :=
  (exec_preserves impl (fun t => AllCanceled t ∧ t.calls = s.calls)
    (fun _ e ht => ⟨(allCanceled_step ht.1 impl e).1, (allCanceled_step ht.1 impl e).2.trans ht.2⟩) es s
    ⟨h, rfl⟩).2

end ConcurrentOperationRunner

open ConcurrentOperationRunner

/-! ## The claims about the runner -/

/-- C5: `runOperation` invokes exactly the action of the requested phase. In the
`Backup` phase it calls `backup()` and returns `true` whenever `backup()` returns (never
`false`; an exception of `backup()` leaves `runOperation` as it is); in the `Perform`
phase it returns exactly what `performOperation()` returns, in the `Undo` phase exactly
what `undoOperation()` returns. -/
theorem runOperation_phase_semantics (operation : OperationImpl) :
    (runOperation operation .Backup).1 = [Call.backup] ∧
    (runOperation operation .Backup).2 =
      (match operation.backup with
       | .ok _ => .ok true
       | .error e => .error e) ∧
    (runOperation operation .Backup).2 ≠ .ok false ∧
    (runOperation operation .Perform).1 = [Call.performOperation] ∧
    (runOperation operation .Perform).2 = operation.performOperation ∧
    (runOperation operation .Undo).1 = [Call.undoOperation] ∧
    (runOperation operation .Undo).2 = operation.undoOperation := by
  refine ⟨rfl, ?_, ?_, rfl, rfl, rfl, rfl⟩
  · show operation.backup.bind (fun _ => Except.ok true) = _
    cases operation.backup <;> rfl
  · show operation.backup.bind (fun _ => Except.ok true) ≠ _
    cases operation.backup with
    | ok u => intro h; cases h
    | error e => intro h; cases h

theorem recorded_canceled (impl : Operation → OperationImpl) (f : Future)
    (hc : f.canceled = true) : recorded impl f = false := by
  unfold recorded
  rw [hc]
  rfl

theorem recorded_fault (impl : Operation → OperationImpl) (f : Future) (e : Fault)
    (hr : (runOperation (impl f.operation) f.type).2 = .error e) :
    recorded impl f = false := by
  unfold recorded
  rw [hr]
  cases f.canceled <;> cases e <;> rfl

theorem noOrphan_construct (ops : List Operation) (type : OperationType) :
    NoOrphan (construct ops type) := by
  intro f hf
  cases hf

/-- C2 as stated fails on a list that names one operation twice: the callback of the
replaced watcher, whose action has thrown, finds no key for itself, records `false`
under the null operation and not under operation `7`, and leaves `7` among the pending
watchers. -/
theorem fault_of_replaced_watcher_counterexample :
    (runOperation faultyImpl .Perform).2 = .error (Fault.error 1) ∧
    (dispatchAll (reset (construct [7, 7] .Perform))).m_operationWatchers = [(7, 1)] ∧
    (onOperationfinished (fun _ => faultyImpl)
      (dispatchAll (reset (construct [7, 7] .Perform)))
      { id := 0, operation := 7, type := .Perform, canceled := false,
        started := true }).m_results = [(nullOperation, false)] ∧
    QHash.value (onOperationfinished (fun _ => faultyImpl)
      (dispatchAll (reset (construct [7, 7] .Perform)))
      { id := 0, operation := 7, type := .Perform, canceled := false,
        started := true }).m_results 7 = none ∧
    7 ∈ QHash.keys (onOperationfinished (fun _ => faultyImpl)
      (dispatchAll (reset (construct [7, 7] .Perform)))
      { id := 0, operation := 7, type := .Perform, canceled := false,
        started := true }).m_operationWatchers := by
  refine ⟨rfl, by decide, by decide, by decide, by decide⟩

/-- C2, amended: when the action of an operation has thrown (an `Error` or an unhandled
exception) and the sender is the watcher registered for that operation, the callback
records `false` for the operation, takes it out of the pending watchers and leaves the
outcome of every other operation as it was. Nothing reaches the caller of `run()`: over
pairwise-distinct operations `run()` still returns once every callback has arrived, and
the hash it returns holds `false` for every operation whose action has thrown. -/
theorem onOperationfinished_isolates_fault (impl : Operation → OperationImpl) :
    (∀ (s : ConcurrentOperationRunner) (sender : Future) (e : Fault),
      (runOperation (impl sender.operation) sender.type).2 = .error e →
      (sender.operation, sender.id) ∈ s.m_operationWatchers →
      (QHash.values s.m_operationWatchers).Nodup →
      QHash.value (onOperationfinished impl s sender).m_results sender.operation =
        some false ∧
      sender.operation ∉ QHash.keys (onOperationfinished impl s sender).m_operationWatchers ∧
      (∀ op, op ≠ sender.operation →
        QHash.value (onOperationfinished impl s sender).m_results op =
          QHash.value s.m_results op)) ∧
    (∀ (ops : List Operation) (type : OperationType) (es : List Event), ops.Nodup →
      ((∀ i, i < ops.length → Event.finished i ∈ es) →
        ∃ R, (run impl (construct ops type) es).2 = some R) ∧
      (∀ R, (run impl (construct ops type) es).2 = some R →
        ∀ (i : Nat) (hi : i < ops.length) (e : Fault),
          (runOperation (impl ops[i]) type).2 = .error e →
          QHash.value R ops[i] = some false)) := by
  constructor
  · intro s sender e hfault hreg hval
    have hk : QHash.key s.m_operationWatchers sender.id nullOperation = sender.operation :=
      QHash.key_of_mem hval hreg
    refine ⟨?_, ?_, ?_⟩
    · show QHash.value (QHash.insert s.m_results
        (QHash.key s.m_operationWatchers sender.id nullOperation) (recorded impl sender))
        sender.operation = some false
      rw [hk, QHash.value_insert_self, recorded_fault impl sender e hfault]
    · show sender.operation ∉ QHash.keys (QHash.remove s.m_operationWatchers
        (QHash.key s.m_operationWatchers sender.id nullOperation))
      rw [hk]
      exact QHash.not_mem_keys_remove _ _
    · intro op hop
      show QHash.value (QHash.insert s.m_results
        (QHash.key s.m_operationWatchers sender.id nullOperation) (recorded impl sender))
        op = _
      rw [hk]
      exact QHash.value_insert_ne _ _ hop
  · intro ops type es hd
    have hno := noOrphan_construct ops type
    constructor
    · intro hall
      apply run_returns impl (construct ops type) es hno
      intro i hi
      have := hall i hi
      simpa [construct] using this
    · intro R hR i hi e he
      refine ((run_spec impl (construct ops type) es hno hd R hR).2 i hi).trans ?_
      congr 1
      exact recorded_fault impl _ e he

/-- C2, amended, at the callback of a throwing operation `8` while `7` already has its
outcome and `9` is still pending, and at a whole run over `7`, `8`, `9`. -/
theorem onOperationfinished_isolates_fault_witness :
    QHash.value (onOperationfinished mixedImpl
      { m_operations := [7, 8, 9], m_type := .Perform,
        m_operationWatchers := [(9, 2), (8, 1)], m_results := [(7, true)],
        watchers := [], nextWatcher := 3, finishedCount := 0, calls := [] }
      { id := 1, operation := 8, type := .Perform, canceled := false,
        started := true }).m_results 7 = some true ∧
    ∃ R, (run mixedImpl (construct [7, 8, 9] .Perform)
        [.finished 1, .finished 0, .finished 2]).2 = some R ∧
      QHash.value R 8 = some false := by
  have h := onOperationfinished_isolates_fault mixedImpl
  have hrun := h.2 [7, 8, 9] .Perform [.finished 1, .finished 0, .finished 2] (by decide)
  obtain ⟨R, hR⟩ := hrun.1 (by decide)
  exact ⟨((h.1
    { m_operations := [7, 8, 9], m_type := .Perform,
      m_operationWatchers := [(9, 2), (8, 1)], m_results := [(7, true)],
      watchers := [], nextWatcher := 3, finishedCount := 0, calls := [] }
    { id := 1, operation := 8, type := .Perform, canceled := false, started := true }
    (Fault.error 1) rfl (by decide) (by decide)).2.2 7 (by decide)).trans (by decide),
    R, hR, hrun.2 R hR 1 (by decide) (Fault.error 1) rfl⟩

/-- C3 as stated fails on a list that names one operation twice: `cancel()` only
reaches the watcher that is still in the table, so with `cancel()` called before anything
has started the replaced watcher runs its action all the same and its outcome `true` is
recorded under the null key. -/
theorem cancel_before_start_duplicate_counterexample :
    (run (fun _ => okImpl) (construct [7, 7] .Perform)
      [.cancel, .finished 0, .finished 1]).2 = some [(7, false), (0, true)] ∧
    (run (fun _ => okImpl) (construct [7, 7] .Perform)
      [.cancel, .finished 0, .finished 1]).1.calls = [(7, Call.performOperation)] := by
  decide

/-- C3, amended: for pairwise-distinct operations, when `cancel()` is called before any
task has started, no action is ever invoked, `run()` returns once every callback has
arrived, and the hash it returns has exactly the submitted operations as keys and
`false` as every value. -/
theorem cancel_before_start_all_false (impl : Operation → OperationImpl)
    (ops : List Operation) (type : OperationType) (es : List Event) (hd : ops.Nodup) :
    (run impl (construct ops type) (Event.cancel :: es)).1.calls = [] ∧
    ((∀ i, i < ops.length → Event.finished i ∈ es) →
      ∃ R, (run impl (construct ops type) (Event.cancel :: es)).2 = some R) ∧
    (∀ R, (run impl (construct ops type) (Event.cancel :: es)).2 = some R →
      (QHash.keys R).Perm ops ∧ ∀ p ∈ R, p.2 = false) := by
  have hno := noOrphan_construct ops type
  refine ⟨?_, ?_, ?_⟩
  · by_cases hops : (construct ops type).m_operations = []
    · rw [run_empty impl _ _ hops]
      rfl
    · rw [run_nonempty impl _ _ hops]
      obtain ⟨_, _, _, _, hcalls, _, _, hlinked⟩ := ready (construct ops type) hno
      have hl := hlinked hd
      have hw : exec impl (dispatchAll (reset (construct ops type))) (Event.cancel :: es) =
          exec impl (cancel (dispatchAll (reset (construct ops type)))) es :=
        exec_cons_wait impl _ Event.cancel es (Nat.lt_irrefl _)
      rw [hw]
      have hall : AllCanceled (cancel (dispatchAll (reset (construct ops type)))) := by
        intro f hf
        obtain ⟨x, hx, rfl⟩ := List.mem_map.1 hf
        have hv : x.id ∈ QHash.values
            (dispatchAll (reset (construct ops type))).m_operationWatchers :=
          List.mem_map_of_mem Prod.snd (hl.registered x hx)
        simp [hv]
      show (exec impl (cancel (dispatchAll (reset (construct ops type)))) es).1.calls = []
      rw [exec_calls_canceled impl es hall]
      exact hcalls
  · intro hall
    apply run_returns impl (construct ops type) _ hno
    intro i hi
    have := hall i hi
    exact List.mem_cons_of_mem _ (by simpa [construct] using this)
  · intro R hR
    obtain ⟨h1, h2⟩ := run_spec impl (construct ops type) _ hno hd R hR
    refine ⟨h1, ?_⟩
    intro p hp
    have hk : p.1 ∈ ops := (List.Perm.mem_iff h1).1 (List.mem_map_of_mem Prod.fst hp)
    obtain ⟨i, hi, hget⟩ := List.getElem_of_mem hk
    have hnd : (QHash.keys R).Nodup := (List.Perm.nodup_iff h1).2 hd
    have hv1 : QHash.value R p.1 = some p.2 := QHash.value_of_mem hnd hp
    have hv2 := h2 i hi
    have hget2 : (construct ops type).m_operations[i] = p.1 := hget
    rw [hget2, hv1] at hv2
    rw [Option.some.inj hv2]
    exact recorded_canceled impl _ rfl

/-- C3, amended, at three operations canceled at once. -/
theorem cancel_before_start_all_false_witness :
    ([7, 8, 9] : List Operation).Nodup ∧
    (run (fun _ => okImpl) (construct [7, 8, 9] .Perform)
      [.cancel, .start 1, .finished 1, .finished 0, .finished 2]).1.calls = [] ∧
    ∃ R, (run (fun _ => okImpl) (construct [7, 8, 9] .Perform)
        [.cancel, .start 1, .finished 1, .finished 0, .finished 2]).2 = some R ∧
      ∀ p ∈ R, p.2 = false := by
  have h := cancel_before_start_all_false (fun _ => okImpl) [7, 8, 9] .Perform
    [.start 1, .finished 1, .finished 0, .finished 2] (by decide)
  obtain ⟨R, hR⟩ := h.2.1 (by decide)
  exact ⟨by decide, h.1, R, hR, (h.2.2 R hR).2⟩

/-- C4: the code at the failing input. The task of the one operation `5` has started
(its `performOperation()` is invoked and returns `true`), then `cancel()` is called while
the watcher is still in the table, then the callback arrives: the watcher reads as
canceled, the branch meant for operations canceled before execution is taken, and the
hash that `run()` returns holds `false` for `5`, not the `true` its action returned. -/
theorem cancel_in_flight_records_false :
    (exec (fun _ => okImpl) (dispatchAll (reset (construct [5] .Perform)))
      [.start 0]).1.watchers =
      [{ id := 0, operation := 5, type := .Perform, canceled := false, started := true }] ∧
    (exec (fun _ => okImpl) (dispatchAll (reset (construct [5] .Perform)))
      [.start 0, .cancel]).1.watchers =
      [{ id := 0, operation := 5, type := .Perform, canceled := true, started := true }] ∧
    (run (fun _ => okImpl) (construct [5] .Perform)
      [.start 0, .cancel, .finished 0]).1.calls = [(5, Call.performOperation)] ∧
    (runOperation okImpl .Perform).2 = .ok true ∧
    (run (fun _ => okImpl) (construct [5] .Perform)
      [.start 0, .cancel, .finished 0]).2 = some [(5, false)] ∧
    (run (fun _ => okImpl) (construct [5] .Perform)
      [.start 0, .finished 0]).2 = some [(5, true)] := by
  refine ⟨by decide, by decide, by decide, rfl, by decide, by decide⟩

/-- C6 as stated fails on the empty list: `run()` then skips the event loop and returns
the empty hash without `finished()` ever being emitted. -/
theorem run_empty_list_emits_nothing :
    (run (fun _ => okImpl) (construct [] .Perform) []).2 = some [] ∧
    (run (fun _ => okImpl) (construct [] .Perform) []).1.finishedCount = 0 := by
  decide

/-- C6, amended: `finished()` is emitted only by a callback that leaves the table of
pending watchers empty. On the empty list `run()` returns the empty hash at once and
emits nothing. On any non-empty list `run()` emits nothing while it is blocked, returns
once every callback has arrived, and on return `finished()` has been emitted exactly
once, the table is empty, and the returned hash is the result map and holds an outcome
for every submitted operation; if the operations are pairwise distinct, no watcher at
all is outstanding then. -/
theorem finished_emitted_once (impl : Operation → OperationImpl)
    (ops : List Operation) (type : OperationType) (es : List Event) :
    (∀ (s : ConcurrentOperationRunner) (e : Event),
      (step impl s e).finishedCount = s.finishedCount ∨
      ((step impl s e).finishedCount = s.finishedCount + 1 ∧
        (step impl s e).m_operationWatchers = [])) ∧
    (ops = [] →
      (run impl (construct ops type) es).2 = some [] ∧
      (run impl (construct ops type) es).1.finishedCount = 0) ∧
    (ops ≠ [] →
      ((run impl (construct ops type) es).2 = none →
        (run impl (construct ops type) es).1.finishedCount = 0) ∧
      ((∀ i, i < ops.length → Event.finished i ∈ es) →
        ∃ R, (run impl (construct ops type) es).2 = some R) ∧
      (∀ R, (run impl (construct ops type) es).2 = some R →
        (run impl (construct ops type) es).1.finishedCount = 1 ∧
        (run impl (construct ops type) es).1.m_operationWatchers = [] ∧
        R = (run impl (construct ops type) es).1.m_results ∧
        (∀ op ∈ ops, op ∈ QHash.keys R) ∧
        (ops.Nodup → (run impl (construct ops type) es).1.watchers = []))) := by
  have hno := noOrphan_construct ops type
  refine ⟨?_, ?_, ?_⟩
  · intro s e
    rcases step_cases impl s e with ⟨h1, _⟩ | ⟨w, _, _, ⟨h1, _⟩ | ⟨h1, h2⟩⟩
    · exact Or.inl h1
    · exact Or.inl h1
    · exact Or.inr ⟨h1, h2⟩
  · intro hops
    rw [run_empty impl (construct ops type) es hops]
    exact ⟨rfl, rfl⟩
  · intro hops
    refine ⟨?_, ?_, ?_⟩
    · intro hnone
      rw [run_nonempty impl (construct ops type) es hops] at hnone ⊢
      cases hq : (exec impl (dispatchAll (reset (construct ops type))) es).2 with
      | true =>
        rw [hq] at hnone
        cases hnone
      | false =>
        show (exec impl (dispatchAll (reset (construct ops type))) es).1.finishedCount = 0
        rw [exec_wait impl es _ hq]
        exact (ready (construct ops type) hno).2.2.2.1
    · intro hall
      apply run_returns impl (construct ops type) es hno
      intro i hi
      have := hall i hi
      simpa [construct] using this
    · intro R hR
      obtain ⟨_, _, h3, h4, h5, h6⟩ := run_state impl (construct ops type) es hno hops R hR
      exact ⟨h5, h4, h3, h6,
        fun hd => run_no_outstanding impl (construct ops type) es hno hd R hR⟩

/-- C6, amended, at two operations. -/
theorem finished_emitted_once_witness :
    ([7, 8] : List Operation) ≠ [] ∧
    (run (fun _ => okImpl) (construct [7, 8] .Perform) [.finished 1, .finished 0]).1.finishedCount
      = 1 ∧
    (run (fun _ => okImpl) (construct [7, 8] .Perform) [.finished 1, .finished 0]).1.watchers
      = [] ∧
    (run (fun _ => okImpl) (construct [7, 8] .Perform) [.finished 1]).1.finishedCount = 0 := by
  have h := (finished_emitted_once (fun _ => okImpl) [7, 8] .Perform
    [.finished 1, .finished 0]).2.2 (by decide)
  have h2 := (finished_emitted_once (fun _ => okImpl) [7, 8] .Perform
    [.finished 1]).2.2 (by decide)
  obtain ⟨R, hR⟩ := h.2.1 (by decide)
  exact ⟨by decide, (h.2.2 R hR).1, (h.2.2 R hR).2.2.2.2 (by decide), h2.1 (by decide)⟩

theorem reset_reset (s : ConcurrentOperationRunner) : reset (reset s) = reset s := by
  simp [reset, QHash.values]

/-- C7 as stated fails when a runner is reused around a list that names one operation
twice. After a run over two times `7` in which the second watcher reported first, the
replaced watcher is in no table, so `reset()` does not delete it; when its callback
arrives during the later run over the single operation `8`, the outcome of the earlier
action lands in the returned hash under the null operation. And a later run that itself
names `9` twice returns an entry under the null operation as well. -/
theorem reuse_after_duplicate_counterexample :
    orphanedRunner.m_operationWatchers = [] ∧
    orphanedRunner.m_results = [(7, true)] ∧
    orphanedRunner.watchers =
      [{ id := 0, operation := 7, type := .Perform, canceled := false, started := false }] ∧
    (reset orphanedRunner).watchers = orphanedRunner.watchers ∧
    (run (fun _ => okImpl) orphanedRunner [.finished 0, .finished 2]).2 =
      some [(8, true), (nullOperation, true)] ∧
    nullOperation ∉ orphanedRunner.m_operations ∧
    (run (fun _ => okImpl) (setOperations reusedRunner [9, 9])
      [.finished 2, .finished 3]).2 = some [(9, true), (nullOperation, true)] ∧
    nullOperation ∉ ([9, 9] : List Operation) := by
  decide

/-- C7, amended: `reset()` empties the table of pending watchers and the result map and
deletes the watchers of the table, and `run()` starts with it. So when no watcher is
outstanding outside the table (no replaced watcher of an earlier run) and the operations
of the run are pairwise distinct, then whatever the two hashes held before, the hash
that `run()` returns has exactly the operations of this run as keys, each with the
outcome of its own watcher in this run; and the run leaves no watcher outstanding, so
the same holds for the next run. -/
theorem reset_then_run_forgets (impl : Operation → OperationImpl)
    (s : ConcurrentOperationRunner) (es : List Event) (hno : NoOrphan s)
    (hd : s.m_operations.Nodup) :
    (reset s).m_operationWatchers = [] ∧ (reset s).m_results = [] ∧
    (reset s).watchers = [] ∧
    run impl s es = run impl (reset s) es ∧
    (∀ R, (run impl s es).2 = some R →
      (QHash.keys R).Perm s.m_operations ∧
      (∀ (i : Nat) (hi : i < s.m_operations.length),
        QHash.value R s.m_operations[i] =
          some (recorded impl
            { id := s.nextWatcher + i, operation := s.m_operations[i], type := s.m_type,
              canceled := canceledBefore es (s.nextWatcher + i), started := false })) ∧
      NoOrphan (run impl s es).1) := by
  refine ⟨rfl, rfl, reset_watchers hno, ?_, ?_⟩
  · unfold run
    rw [reset_reset]
  · intro R hR
    obtain ⟨h1, h2⟩ := run_spec impl s es hno hd R hR
    refine ⟨h1, h2, ?_⟩
    intro f hf
    rw [run_no_outstanding impl s es hno hd R hR] at hf
    cases hf

/-- C7, amended, at a runner with outcomes of an earlier run for `7` and `8` and two
watchers still pending in its table: their late callbacks change nothing, and the run
returns outcomes for `9` and `7` only, the one for `7` being the new one. -/
theorem reset_then_run_forgets_witness :
    NoOrphan leftoverRunner ∧ leftoverRunner.m_operations.Nodup ∧
    leftoverRunner.m_results = [(7, true), (8, false)] ∧
    leftoverRunner.m_operationWatchers = [(6, 1), (5, 0)] ∧
    ∃ R, (run mixedImpl leftoverRunner
        [.finished 0, .finished 3, .finished 1, .finished 2]).2 = some R ∧
      (QHash.keys R).Perm [9, 7] ∧ R = [(9, true), (7, true)] := by
  have hno : NoOrphan leftoverRunner := by
    unfold NoOrphan
    decide
  have h := reset_then_run_forgets mixedImpl leftoverRunner
    [.finished 0, .finished 3, .finished 1, .finished 2] hno (by decide)
  exact ⟨hno, by decide, by decide, by decide, _, rfl, (h.2.2.2.2 _ rfl).1, by decide⟩

/-- C10: the table is keyed by operation, so a list that names operation `7` twice
leaves one table entry, the second watcher; the callback of the first watcher finds no
key (the lookup yields the null operation) and the returned hash gets an entry under the
null operation, which was not submitted; and when the second watcher reports first,
`finished()` is emitted and `run()` returns while the first watcher is still
outstanding. -/
theorem duplicate_operation_breaks_bookkeeping :
    ¬ ([7, 7] : List Operation).Nodup ∧
    (dispatchAll (reset (construct [7, 7] .Perform))).m_operationWatchers = [(7, 1)] ∧
    ((dispatchAll (reset (construct [7, 7] .Perform))).watchers.map Future.id) = [0, 1] ∧
    QHash.key (dispatchAll (reset (construct [7, 7] .Perform))).m_operationWatchers 0
      nullOperation = nullOperation ∧
    (run (fun _ => okImpl) (construct [7, 7] .Perform) [.finished 0, .finished 1]).2 =
      some [(7, true), (nullOperation, true)] ∧
    nullOperation ∉ ([7, 7] : List Operation) ∧
    (run (fun _ => okImpl) (construct [7, 7] .Perform) [.finished 1]).2 = some [(7, true)] ∧
    (run (fun _ => okImpl) (construct [7, 7] .Perform) [.finished 1]).1.finishedCount = 1 ∧
    (run (fun _ => okImpl) (construct [7, 7] .Perform) [.finished 1]).1.watchers =
      [{ id := 0, operation := 7, type := .Perform, canceled := false, started := false }] := by
  decide

/-! ## Facts about the resolver -/

namespace Resolver

theorem mem_addAll {ws ids : List ComponentId} {x : ComponentId} :
    x ∈ addAll ws ids ↔ x ∈ ws ∨ x ∈ ids := by
  unfold addAll
  rw [List.mem_append, List.mem_dedup, List.mem_filter]
  constructor
  · rintro (h | ⟨h, _⟩)
    · exact Or.inl h
    · exact Or.inr h
  · rintro (h | h)
    · exact Or.inl h
    · by_cases hx : x ∈ ws
      · exact Or.inl hx
      · exact Or.inr ⟨h, by simpa using hx⟩

theorem subset_addAncestors {ws : List ComponentId} {x : ComponentId} (h : x ∈ ws) :
    x ∈ addAncestors ws :=
  mem_addAll.2 (Or.inl h)

theorem ancestors_mem_addAncestors {ws : List ComponentId} {d a : ComponentId}
    (hd : d ∈ ws) (ha : a ∈ ancestors d) : a ∈ addAncestors ws :=
  mem_addAll.2 (Or.inr (List.mem_flatMap.2 ⟨d, hd, ha⟩))

theorem subset_addDependencies (cat : Catalog) :
    ∀ (n : Nat) (ws : List ComponentId) (x : ComponentId), x ∈ ws →
      x ∈ addDependencies cat n ws := by
  intro n
  induction n with
  | zero => intro ws x h; exact h
  | succ n ih =>
    intro ws x h
    unfold addDependencies
    split
    · exact h
    · exact ih _ x (subset_addAncestors (mem_addAll.2 (Or.inl h)))

theorem subset_closurePass (cat : Catalog) (bound : Nat) {ws : List ComponentId}
    {x : ComponentId} (h : x ∈ addAncestors ws) : x ∈ closurePass cat bound ws :=
  mem_addAll.2 (Or.inl (mem_addAll.2 (Or.inl (subset_addDependencies cat bound _ x h))))

theorem closurePass_subset_closure (cat : Catalog) (bound : Nat) :
    ∀ (n : Nat) (ws : List ComponentId) (x : ComponentId), x ∈ closurePass cat bound ws →
      x ∈ closure cat bound n ws := by
  intro n
  induction n with
  | zero => intro ws x h; exact h
  | succ n ih =>
    intro ws x h
    unfold closure
    split
    · exact h
    · exact ih _ x (subset_closurePass cat bound (subset_addAncestors h))

theorem mem_catalogOrder (cat : Catalog) {ws : List ComponentId} {x : ComponentId}
    (h : x ∈ ws) : x ∈ catalogOrder cat ws := by
  unfold catalogOrder
  rw [List.mem_dedup, List.mem_append, List.mem_filter, List.mem_filter]
  by_cases hx : x ∈ cat.map (fun c => c.id)
  · exact Or.inl ⟨hx, by simpa using h⟩
  · exact Or.inr ⟨h, by simpa using hx⟩

theorem length_lt_of_mem_ancestors {a d : ComponentId} (h : a ∈ ancestors d) :
    a.length < d.length := by
  unfold ancestors at h
  obtain ⟨n, hn, rfl⟩ := List.mem_map.1 h
  have hn2 : n < d.length := List.mem_range.1 (List.mem_of_mem_tail hn)
  rw [List.length_take]
  omega

theorem exists_shortest :
    ∀ (w : List ComponentId), w ≠ [] → ∃ x ∈ w, ∀ y ∈ w, x.length ≤ y.length := by
  intro w
  induction w with
  | nil => intro h; exact absurd rfl h
  | cons a t ih =>
    intro _
    by_cases ht : t = []
    · subst ht
      refine ⟨a, List.mem_cons_self a [], ?_⟩
      intro y hy
      rw [List.mem_singleton.1 hy]
    · obtain ⟨x, hx, hmin⟩ := ih ht
      by_cases hax : a.length ≤ x.length
      · refine ⟨a, List.mem_cons_self a t, ?_⟩
        intro y hy
        rcases List.mem_cons.1 hy with rfl | hy2
        · exact Nat.le_refl _
        · exact Nat.le_trans hax (hmin y hy2)
      · refine ⟨x, List.mem_cons_of_mem a hx, ?_⟩
        intro y hy
        rcases List.mem_cons.1 hy with rfl | hy2
        · omega
        · exact hmin y hy2

theorem pick_spec {cat : Catalog} {w : List ComponentId} {x : ComponentId}
    (h : pick cat w = some x) : x ∈ w ∧ ancestorsPlaced w x = true := by
  unfold pick at h
  split at h
  · next y hy =>
    have hx : y = x := Option.some.inj h
    subst hx
    have hp := List.find?_some hy
    unfold placeable at hp
    exact ⟨List.mem_of_find?_eq_some hy, (Bool.and_eq_true _ _ ▸ hp).1⟩
  · exact ⟨List.mem_of_find?_eq_some h, List.find?_some h⟩

theorem pick_some (cat : Catalog) {w : List ComponentId} (hw : w ≠ []) :
    ∃ x, pick cat w = some x := by
  obtain ⟨x, hx, hmin⟩ := exists_shortest w hw
  have hplaced : ancestorsPlaced w x = true := by
    unfold ancestorsPlaced
    apply List.all_eq_true.2
    intro a ha
    have hlt := length_lt_of_mem_ancestors ha
    have : a ∉ w := by
      intro haw
      have := hmin a haw
      omega
    simpa using this
  unfold pick
  split
  · next y _ => exact ⟨y, rfl⟩
  · cases hf : w.find? (ancestorsPlaced w) with
    | some y => exact ⟨y, rfl⟩
    | none =>
      have := List.find?_eq_none.1 hf x hx
      exact absurd hplaced this

theorem topologicalOrder_subset (cat : Catalog) :
    ∀ (n : Nat) (w : List ComponentId) (y : ComponentId),
      y ∈ topologicalOrder cat n w → y ∈ w := by
  intro n
  induction n with
  | zero => intro w y h; cases h
  | succ n ih =>
    intro w y h
    unfold topologicalOrder at h
    split at h
    · cases h
    · next x hx =>
      rcases List.mem_cons.1 h with rfl | h2
      · exact (pick_spec hx).1
      · exact List.mem_of_mem_erase (ih _ y h2)

theorem topologicalOrder_complete (cat : Catalog) :
    ∀ (n : Nat) (w : List ComponentId), w.length ≤ n → ∀ y ∈ w,
      y ∈ topologicalOrder cat n w := by
  intro n
  induction n with
  | zero =>
    intro w hw y hy
    have : w = [] := List.length_eq_zero.1 (Nat.le_zero.1 hw)
    rw [this] at hy
    cases hy
  | succ n ih =>
    intro w hw y hy
    have hne : w ≠ [] := by
      rintro rfl
      cases hy
    obtain ⟨x, hx⟩ := pick_some cat hne
    unfold topologicalOrder
    rw [hx]
    show y ∈ x :: topologicalOrder cat n (w.erase x)
    by_cases hyx : y = x
    · rw [hyx]
      exact List.mem_cons_self _ _
    · apply List.mem_cons_of_mem
      apply ih
      · rw [List.length_erase_of_mem (pick_spec hx).1]
        omega
      · exact (List.mem_erase_of_ne hyx).2 hy

theorem topologicalOrder_nodup (cat : Catalog) :
    ∀ (n : Nat) (w : List ComponentId), w.Nodup → (topologicalOrder cat n w).Nodup := by
  intro n
  induction n with
  | zero => intro w _; exact List.nodup_nil
  | succ n ih =>
    intro w hw
    cases hx : pick cat w with
    | none =>
      have hnil : topologicalOrder cat (n + 1) w = [] := by
        simp [topologicalOrder, hx]
      rw [hnil]
      exact List.nodup_nil
    | some x =>
      have hcons : topologicalOrder cat (n + 1) w =
          x :: topologicalOrder cat n (w.erase x) := by
        simp [topologicalOrder, hx]
      rw [hcons]
      apply List.nodup_cons.2
      refine ⟨?_, ih _ (hw.erase x)⟩
      intro hmem
      have := topologicalOrder_subset cat n _ x hmem
      exact (hw.mem_erase_iff.1 this).1 rfl

theorem topologicalOrder_ancestors_first (cat : Catalog) :
    ∀ (n : Nat) (w : List ComponentId) (a d : ComponentId),
      a ∈ topologicalOrder cat n w → d ∈ topologicalOrder cat n w → a ∈ ancestors d →
      (topologicalOrder cat n w).indexOf a < (topologicalOrder cat n w).indexOf d := by
  intro n
  induction n with
  | zero => intro w a d ha; cases ha
  | succ n ih =>
    intro w a d ha hd hanc
    have hne : a ≠ d := by
      intro e
      have := length_lt_of_mem_ancestors hanc
      rw [e] at this
      omega
    have haw := topologicalOrder_subset cat _ w a ha
    cases hx : pick cat w with
    | none =>
      have hnil : topologicalOrder cat (n + 1) w = [] := by
        simp [topologicalOrder, hx]
      rw [hnil] at ha
      cases ha
    | some x =>
      have hcons : topologicalOrder cat (n + 1) w =
          x :: topologicalOrder cat n (w.erase x) := by
        simp [topologicalOrder, hx]
      rw [hcons] at ha hd ⊢
      have hplaced := (pick_spec hx).2
      by_cases hdx : d = x
      · subst hdx
        unfold ancestorsPlaced at hplaced
        have := List.all_eq_true.1 hplaced a hanc
        exact absurd haw (by simpa using this)
      · have hd2 : d ∈ topologicalOrder cat n (w.erase x) := by
          rcases List.mem_cons.1 hd with e | e
          · exact absurd e hdx
          · exact e
        have hxd : (x == d) = false := beq_eq_false_iff_ne.2 (fun e => hdx e.symm)
        rw [List.indexOf_cons, List.indexOf_cons, hxd]
        by_cases hax : a = x
        · subst hax
          simp
        · have ha2 : a ∈ topologicalOrder cat n (w.erase x) := by
            rcases List.mem_cons.1 ha with e | e
            · exact absurd e hax
            · exact e
          have hxa : (x == a) = false := beq_eq_false_iff_ne.2 (fun e => hax e.symm)
          rw [hxa]
          have := ih _ a d ha2 hd2 hanc
          simpa using this

theorem resolve_explicit_ok {cat : Catalog} {ids result : List ComponentId}
    (h : resolve cat (.explicit ids) = .ok result) :
    validateAll cat ids = .ok () ∧ result = select cat ids := by
  unfold resolve at h
  simp only at h
  cases hv : validateAll cat ids with
  | error e =>
    rw [hv] at h
    cases h
  | ok u =>
    rw [hv] at h
    exact ⟨rfl, (Except.ok.inj h).symm⟩

theorem mem_select_of_mem_addAncestors (cat : Catalog) {ids : List ComponentId}
    {x : ComponentId} (h : x ∈ addAncestors ids.dedup) : x ∈ select cat ids := by
  unfold select
  apply topologicalOrder_complete cat _ _ (Nat.le_refl _)
  apply mem_catalogOrder
  apply closurePass_subset_closure
  exact subset_closurePass cat _ h

theorem validateAll_append_error (cat : Catalog) :
    ∀ (pre post : List ComponentId) (id : ComponentId) (e : SelectionError),
      (∀ p ∈ pre, validate cat p = .ok ()) → validate cat id = .error e →
      validateAll cat (pre ++ id :: post) = .error e := by
  intro pre
  induction pre with
  | nil =>
    intro post id e _ he
    simp [validateAll, he]
  | cons a t ih =>
    intro post id e hpre he
    have ha : validate cat a = .ok () := hpre a (List.mem_cons_self a t)
    have ht : ∀ p ∈ t, validate cat p = .ok () :=
      fun p hp => hpre p (List.mem_cons_of_mem a hp)
    show validateAll cat (a :: (t ++ id :: post)) = .error e
    unfold validateAll
    rw [ha]
    exact ih post id e ht he

/-- C8: an explicit request is rejected with the error of the first check that its
first invalid id fails, and nothing is selected. For every request whose ids before
`id` are all valid: if `id` is not in the catalog the request fails with `NotFound`; if
it is virtual, with `VirtualComponent`; if it passes that check and is a non-leaf
`checkableLeafOnly` id, with `MustSelectSubcomponent`; if it passes those checks and is
flagged `installOnlyAsDependency`, with `OnlyInstallableAsDependency`; and whatever
error validation gives for `id` is the result of the whole request. -/
theorem resolve_rejects_invalid (cat : Catalog) (pre post : List ComponentId)
    (id : ComponentId) (hpre : ∀ p ∈ pre, validate cat p = .ok ()) :
    (get cat id = none →
      resolve cat (.explicit (pre ++ id :: post)) = .error (.NotFound id)) ∧
    (∀ c, get cat id = some c → c.isVirtual = true →
      resolve cat (.explicit (pre ++ id :: post)) = .error (.VirtualComponent id)) ∧
    (∀ c, get cat id = some c → c.isVirtual = false → c.checkableLeafOnly = true →
      children cat id ≠ [] →
      resolve cat (.explicit (pre ++ id :: post)) = .error (.MustSelectSubcomponent id)) ∧
    (∀ c, get cat id = some c → c.isVirtual = false →
      (c.checkableLeafOnly = false ∨ children cat id = []) →
      c.installOnlyAsDependency = true →
      resolve cat (.explicit (pre ++ id :: post)) =
        .error (.OnlyInstallableAsDependency id)) ∧
    (∀ e, validate cat id = .error e →
      resolve cat (.explicit (pre ++ id :: post)) = .error e) := by
  have hres : ∀ e, validate cat id = .error e →
      resolve cat (.explicit (pre ++ id :: post)) = .error e := by
    intro e he
    have := validateAll_append_error cat pre post id e hpre he
    simp [resolve, this]
  refine ⟨?_, ?_, ?_, ?_, hres⟩
  · intro hg
    apply hres
    simp [validate, hg]
  · intro c hg hv
    apply hres
    simp [validate, hg, hv]
  · intro c hg hv hc hch
    apply hres
    simp [validate, hg, hv, hc, hch]
  · intro c hg hv hc hi
    apply hres
    rcases hc with hc | hc
    · simp [validate, hg, hv, hc, hi]
    · simp [validate, hg, hv, hc, hi]

/-- C8, at the four requests of `testInstallPackageFails`, and at a request that names
a valid id before a virtual one and a missing one. -/
theorem resolve_rejects_invalid_witness :
    resolve uninstallableComponentsRepository (.explicit [["MissingComponent"]]) =
      .error (.NotFound ["MissingComponent"]) ∧
    resolve uninstallableComponentsRepository (.explicit [["B"]]) =
      .error (.VirtualComponent ["B"]) ∧
    resolve uninstallableComponentsRepository (.explicit [["AB"]]) =
      .error (.MustSelectSubcomponent ["AB"]) ∧
    resolve uninstallableComponentsRepository (.explicit [["A"]]) =
      .error (.OnlyInstallableAsDependency ["A"]) ∧
    resolve uninstallableComponentsRepository
      (.explicit [["autoDep"], ["B"], ["MissingComponent"]]) =
      .error (.VirtualComponent ["B"]) :=
  ⟨(resolve_rejects_invalid uninstallableComponentsRepository [] [] ["MissingComponent"]
      (fun _ hp => absurd hp (List.not_mem_nil _))).1 rfl,
   (resolve_rejects_invalid uninstallableComponentsRepository [] [] ["B"]
      (fun _ hp => absurd hp (List.not_mem_nil _))).2.1 _ rfl rfl,
   (resolve_rejects_invalid uninstallableComponentsRepository [] [] ["AB"]
      (fun _ hp => absurd hp (List.not_mem_nil _))).2.2.1 _ rfl rfl rfl (by decide),
   (resolve_rejects_invalid uninstallableComponentsRepository [] [] ["A"]
      (fun _ hp => absurd hp (List.not_mem_nil _))).2.2.2.1 _ rfl rfl (Or.inl rfl) rfl,
   (resolve_rejects_invalid uninstallableComponentsRepository [["autoDep"]]
      [["MissingComponent"]] ["B"]
      (fun p hp => by rw [List.mem_singleton.1 hp]; rfl)).2.1 _ rfl rfl⟩

/-- C9: whenever an explicit request is valid, the selection holds every id once, it
holds every requested id and every ancestor on its dotted path, and in the selection
every ancestor stands before each of its descendants. -/
theorem resolve_includes_ancestors (cat : Catalog) (ids result : List ComponentId)
    (h : resolve cat (.explicit ids) = .ok result) :
    result.Nodup ∧
    (∀ id ∈ ids, id ∈ result ∧
      ∀ a ∈ ancestors id, a ∈ result ∧ result.indexOf a < result.indexOf id) ∧
    (∀ a d, a ∈ result → d ∈ result → a ∈ ancestors d →
      result.indexOf a < result.indexOf d) := by
  obtain ⟨_, hsel⟩ := resolve_explicit_ok h
  refine ⟨?_, ?_⟩
  · rw [hsel]
    exact topologicalOrder_nodup cat _ _ (List.nodup_dedup _)
  have horder : ∀ a d, a ∈ result → d ∈ result → a ∈ ancestors d →
      result.indexOf a < result.indexOf d := by
    intro a d ha hd hanc
    rw [hsel] at ha hd ⊢
    exact topologicalOrder_ancestors_first cat _ _ a d ha hd hanc
  refine ⟨?_, horder⟩
  intro id hid
  have hin : id ∈ result := by
    rw [hsel]
    exact mem_select_of_mem_addAncestors cat
      (subset_addAncestors (List.mem_dedup.2 hid))
  refine ⟨hin, ?_⟩
  intro a ha
  have hain : a ∈ result := by
    rw [hsel]
    exact mem_select_of_mem_addAncestors cat
      (ancestors_mem_addAncestors (List.mem_dedup.2 hid) ha)
  exact ⟨hain, horder a id hain hin ha⟩

/-- C9, at the request of `testInstallSubcomponentSilently`. -/
theorem resolve_includes_ancestors_witness :
    resolve installPackagesRepository
      (.explicit [["componentF", "subcomponent2", "subsubcomponent2"]]) =
      .ok [["componentE"], ["componentF"], ["componentF", "subcomponent2"],
        ["componentF", "subcomponent2", "subsubcomponent2"]] ∧
    ancestors ["componentF", "subcomponent2", "subsubcomponent2"] =
      [["componentF"], ["componentF", "subcomponent2"]] ∧
    (["componentF"] : ComponentId) ∈
      [["componentE"], ["componentF"], ["componentF", "subcomponent2"],
        ["componentF", "subcomponent2", "subsubcomponent2"]] ∧
    (["componentF", "subcomponent2"] : ComponentId) ∈
      [["componentE"], ["componentF"], ["componentF", "subcomponent2"],
        ["componentF", "subcomponent2", "subsubcomponent2"]] :=
  ⟨rfl, rfl,
   (((resolve_includes_ancestors installPackagesRepository
      [["componentF", "subcomponent2", "subsubcomponent2"]] _ rfl).2.1 _
      (List.mem_singleton_self _)).2 ["componentF"] (by decide)).1,
   (((resolve_includes_ancestors installPackagesRepository
      [["componentF", "subcomponent2", "subsubcomponent2"]] _ rfl).2.1 _
      (List.mem_singleton_self _)).2 ["componentF", "subcomponent2"] (by decide)).1⟩

end Resolver

end QInstaller
